import Mathlib

/-!
# UEConcurrent: thread-safe array append and the checked read/write guard

A verification development over
`Source/UEConcurrent/Public/Concurrent/ArrayWithThreadsafeAdd.h` and
`Source/UEConcurrent/Public/Concurrent/ReadWriteLock.h`.

Conventions.
* `int32` values are integers; every arithmetic result that the C++ stores in
  an `int32` goes through `wrap32` (two's complement wrap-around).
* Addresses are integers in units of one element.  The heap is a map from
  addresses to the element constructed there, if any.
* `check`, `checkf` are active when `DO_CHECK` is set, `checkSlow` when
  `DO_GUARD_SLOW` is set; a failing assertion is fatal and ends the run.
* Engine code that the headers call but do not contain is a parameter
  (`CheckAddress`) or, for the critical section, a counter of how often the
  owning thread has entered it.
-/

namespace UE

/-! # Definitions -/

/-! ## Machine integers and build configuration -/

/-- Two's complement wrap of an integer into the range of `int32`. -/
def wrap32 (x : Int) : Int := (x + 2147483648) % 4294967296 - 2147483648

/-- Largest `int32`. -/
def MAX_int32 : Int := 2147483647

/-- Membership in the range of `int32`. -/
def IsInt32 (x : Int) : Prop := -2147483648 ≤ x ∧ x ≤ 2147483647

instance (x : Int) : Decidable (IsInt32 x) := by unfold IsInt32; infer_instance

/-- Build configuration: which assertion families are compiled in. -/
structure Build where
  DO_CHECK : Bool
  DO_GUARD_SLOW : Bool
  deriving DecidableEq

/-- The assertions of the two headers, named by what they test. -/
inductive Fatal where
  /-- The `checkSlow(Count >= 0)` of `AddUninitializedThreadsafe`. -/
  | CountNonNegative
  /-- The `check(OldNum + Count <= this->ArrayMax)` of `AddUninitializedThreadsafe`. -/
  | Capacity
  /-- The assertion inside `CheckAddress(&Item)` called by `AddThreadsafe`. -/
  | Address
  /-- The `checkf(DataPreAdd == DataBeforeAdd, ...)` of `AddToArrayThreadSafe`. -/
  | Reallocated
  /-- The `check(Writers == 1)` in the constructor of `FScopedConcurrentWriteCheck`. -/
  | WritersNotOne
  /-- The `check(Writers == 0)` in the destructor of `FScopedConcurrentWriteCheck`. -/
  | WritersNotZero
  /-- The `check(Readers == 1)` in the constructor of `FScopedConcurrentReadCheck`. -/
  | ReadersNotOne
  /-- The `check(Readers == 0)` in the destructor of `FScopedConcurrentReadCheck`. -/
  | ReadersNotZero
  deriving DecidableEq

/-- Result of running code that may hit a fatal assertion: either it returns
`r` in state `s`, or it stops at assertion `f` with the state `s` reached there. -/
inductive Outcome (ρ σ : Type) where
  | ret (r : ρ) (s : σ)
  | fatal (f : Fatal) (s : σ)

namespace Outcome

/-- Sequencing: a fatal assertion ends the run. -/
def bind {ρ ρ' σ : Type} (o : Outcome ρ σ) (k : ρ → σ → Outcome ρ' σ) : Outcome ρ' σ :=
  match o with
  | ret r s => k r s
  | fatal f s => fatal f s

/-- The state in which the run ended. -/
def state {ρ σ : Type} : Outcome ρ σ → σ
  | ret _ s => s
  | fatal _ s => s

/-- The assertion that ended the run, if any. -/
def failure {ρ σ : Type} : Outcome ρ σ → Option Fatal
  | ret _ _ => none
  | fatal f _ => some f

/-- The returned value, if the run returned. -/
def value {ρ σ : Type} : Outcome ρ σ → Option ρ
  | ret r _ => some r
  | fatal _ _ => none

end Outcome

/-- The macro `check(cond)`: fatal with `f` when checks are compiled in and `cond` is false. -/
def check {σ : Type} (enabled : Bool) (cond : Bool) (f : Fatal) (s : σ) : Outcome Unit σ :=
  if enabled && !cond then Outcome.fatal f s else Outcome.ret () s

namespace Concurrent

/-! ## The array with thread-safe add -/

/-- The fields of the engine array that the header touches: the allocation
base `GetData()`, `ArrayNum`, `ArrayMax`, and the heap the allocation lives in. -/
structure TArray (α : Type) where
  Data : Int
  ArrayNum : Int
  ArrayMax : Int
  Mem : Int → Option α

/-- Placement-new of `v` at address `p`. -/
def TArray.construct {α : Type} (A : TArray α) (p : Int) (v : α) : TArray α :=
  { A with Mem := fun q => if q = p then some v else A.Mem q }

/-- The call `FPlatformAtomics::InterlockedAdd(&ArrayNum, Count)`: stores the wrapped sum
and returns the previous value. -/
def TArray.InterlockedAddNum {α : Type} (A : TArray α) (Count : Int) : Int × TArray α :=
  (A.ArrayNum, { A with ArrayNum := wrap32 (A.ArrayNum + Count) })

/-- The element passed by reference to `AddThreadsafe`: its value and the
address it lives at. -/
structure Item (α : Type) where
  value : α
  addr : Int

/-- Method `TArrayWithThreadsafeAddHack::AddUninitializedThreadsafe(Count)`. -/
def AddUninitializedThreadsafe {α : Type} (b : Build) (Count : Int) (A : TArray α) :
    Outcome Int (TArray α) :=
  (check b.DO_GUARD_SLOW (decide (Count ≥ 0)) Fatal.CountNonNegative A).bind fun _ A =>
  let (OldNum, A) := A.InterlockedAddNum Count
  (check b.DO_CHECK (decide (wrap32 (OldNum + Count) ≤ A.ArrayMax)) Fatal.Capacity A).bind fun _ A =>
  Outcome.ret OldNum A

/-- Method `TArrayWithThreadsafeAddHack::EmplaceThreadsafe(Args...)` with the element
built from `v`. -/
def EmplaceThreadsafe {α : Type} (b : Build) (v : α) (A : TArray α) : Outcome Int (TArray α) :=
  (AddUninitializedThreadsafe b 1 A).bind fun Index A =>
  Outcome.ret Index (A.construct (A.Data + Index) v)

/-- Method `TArrayWithThreadsafeAddHack::AddThreadsafe(const ElementType& Item)`.
`CheckAddress` is a member of the engine array and not part of these sources:
the parameter `CheckAddress A p` tells whether the call `CheckAddress(p)` on
array state `A` comes back without asserting in the build at hand. -/
def AddThreadsafe {α : Type} (b : Build) (CheckAddress : TArray α → Int → Bool)
    (Item : Item α) (A : TArray α) : Outcome Int (TArray α) :=
  (check true (CheckAddress A Item.addr) Fatal.Address A).bind fun _ A =>
  EmplaceThreadsafe b Item.value A

/-- Function `AddToArrayThreadSafe(Array, Element)`. -/
def AddToArrayThreadSafe {α : Type} (b : Build) (CheckAddress : TArray α → Int → Bool)
    (Element : Item α) (Array : TArray α) : Outcome Unit (TArray α) :=
  let DataPreAdd := Array.Data
  (AddThreadsafe b CheckAddress Element Array).bind fun _ Array =>
  let DataBeforeAdd := Array.Data
  (check b.DO_CHECK (decide (DataPreAdd = DataBeforeAdd)) Fatal.Reallocated Array).bind fun _ Array =>
  Outcome.ret () Array

/-! ### Interleaved execution

Each call in flight is a thread with a program counter and its locals; one
step of a thread executes one source line.  A schedule is the list of thread
indices in the order in which they take their steps. -/

/-- The two entry points a thread may be running. -/
inductive Call (α : Type) where
  | AddUninitializedThreadsafe (Count : Int)
  | AddToArrayThreadSafe (Element : Item α)

/-- The `Count` handed to `AddUninitializedThreadsafe`; `EmplaceThreadsafe` passes `1`. -/
def Call.Count {α : Type} : Call α → Int
  | AddUninitializedThreadsafe Count => Count
  | AddToArrayThreadSafe _ => 1

/-- Program points, in source order. -/
inductive Pc where
  /-- Line 85, `auto* DataPreAdd = Array.GetData()`. -/
  | getDataPre
  /-- Line 60, `CheckAddress(&Item)`. -/
  | checkAddress
  /-- Line 43, `checkSlow(Count >= 0)`. -/
  | checkSlow
  /-- Line 44, the `InterlockedAdd` on `ArrayNum`. -/
  | interlockedAdd
  /-- Line 45, `check(OldNum + Count <= this->ArrayMax)`. -/
  | checkCapacity
  /-- Line 23, the placement-new at `GetData() + Index`. -/
  | construct
  /-- Lines 89-90, `DataBeforeAdd = Array.GetData()` and the `checkf`. -/
  | checkData
  /-- The call has returned. -/
  | returned
  /-- The call stopped at a failed assertion. -/
  | fatal (f : Fatal)
  deriving DecidableEq

/-- A call in flight: what was called, where it is, and its locals. -/
structure Thread (α : Type) where
  call : Call α
  pc : Pc
  DataPreAdd : Int
  OldNum : Int

/-- First program point of a call. -/
def Call.entry {α : Type} : Call α → Pc
  | AddUninitializedThreadsafe _ => Pc.checkSlow
  | AddToArrayThreadSafe _ => Pc.getDataPre

/-- A thread about to execute the first line of `c`. -/
def Thread.start {α : Type} (c : Call α) : Thread α :=
  { call := c, pc := c.entry, DataPreAdd := 0, OldNum := 0 }

/-- An assertion as a step: go to `next`, or to `fatal f` when it is compiled in and fails. -/
def Thread.assert {α : Type} (t : Thread α) (enabled cond : Bool) (f : Fatal) (next : Pc) :
    Thread α :=
  if enabled && !cond then { t with pc := Pc.fatal f } else { t with pc := next }

/-- One step of a thread on the shared array. -/
def Thread.step {α : Type} (b : Build) (CheckAddress : TArray α → Int → Bool)
    (A : TArray α) (t : Thread α) : TArray α × Thread α :=
  match t.pc with
  | Pc.getDataPre => (A, { t with DataPreAdd := A.Data, pc := Pc.checkAddress })
  | Pc.checkAddress =>
    match t.call with
    | Call.AddToArrayThreadSafe Element =>
      (A, t.assert true (CheckAddress A Element.addr) Fatal.Address Pc.checkSlow)
    | Call.AddUninitializedThreadsafe _ => (A, { t with pc := Pc.checkSlow })
  | Pc.checkSlow =>
    (A, t.assert b.DO_GUARD_SLOW (decide (t.call.Count ≥ 0)) Fatal.CountNonNegative
      Pc.interlockedAdd)
  | Pc.interlockedAdd =>
    let (OldNum, A) := A.InterlockedAddNum t.call.Count
    (A, { t with OldNum := OldNum, pc := Pc.checkCapacity })
  | Pc.checkCapacity =>
    (A, t.assert b.DO_CHECK (decide (wrap32 (t.OldNum + t.call.Count) ≤ A.ArrayMax))
      Fatal.Capacity
      (match t.call with
       | Call.AddUninitializedThreadsafe _ => Pc.returned
       | Call.AddToArrayThreadSafe _ => Pc.construct))
  | Pc.construct =>
    match t.call with
    | Call.AddToArrayThreadSafe Element =>
      (A.construct (A.Data + t.OldNum) Element.value, { t with pc := Pc.checkData })
    | Call.AddUninitializedThreadsafe _ => (A, { t with pc := Pc.returned })
  | Pc.checkData =>
    (A, t.assert b.DO_CHECK (decide (t.DataPreAdd = A.Data)) Fatal.Reallocated Pc.returned)
  | Pc.returned => (A, t)
  | Pc.fatal _ => (A, t)

/-- The value a finished call hands back: `OldNum`, which is also the `Index`
of `EmplaceThreadsafe`. -/
def Thread.result {α : Type} (t : Thread α) : Option Int :=
  if t.pc = Pc.returned then some t.OldNum else none

/-- The shared array together with the calls in flight. -/
structure System (α : Type) where
  Array : TArray α
  Threads : List (Thread α)

/-- All calls of `cs` about to start on array `A`. -/
def System.init {α : Type} (A : TArray α) (cs : List (Call α)) : System α :=
  { Array := A, Threads := cs.map Thread.start }

/-- Thread `i` takes one step (nothing happens when there is no thread `i`). -/
def System.step {α : Type} (b : Build) (CheckAddress : TArray α → Int → Bool)
    (S : System α) (i : Nat) : System α :=
  match S.Threads[i]? with
  | none => S
  | some t =>
    let (A, t) := t.step b CheckAddress S.Array
    { Array := A, Threads := S.Threads.set i t }

/-- Run a schedule. -/
def System.run {α : Type} (b : Build) (CheckAddress : TArray α → Int → Bool)
    (S : System α) (sched : List Nat) : System α :=
  sched.foldl (System.step b CheckAddress) S

/-- The results of all threads, in thread order. -/
def System.results {α : Type} (S : System α) : List (Option Int) :=
  S.Threads.map Thread.result

/-! ### Predicates and measures on the interleaved execution -/

/-- The thread has executed its `InterlockedAdd`. -/
def Pc.reserved : Pc → Bool
  | Pc.checkCapacity => true
  | Pc.construct => true
  | Pc.checkData => true
  | Pc.returned => true
  | _ => false

/-- The number of slots the thread has added to `ArrayNum` so far. -/
def Thread.held {α : Type} (t : Thread α) : Int :=
  if t.pc.reserved = true then t.call.Count else 0

/-- The value the thread has constructed in its slot, once it has done so. -/
def Thread.stored {α : Type} (t : Thread α) : Option α :=
  match t.call, t.pc with
  | Call.AddToArrayThreadSafe Element, Pc.checkData => some Element.value
  | Call.AddToArrayThreadSafe Element, Pc.returned => some Element.value
  | _, _ => none

/-- The program points a call can be at, and what its locals then hold. -/
def Thread.wellFormed {α : Type} (D : Int) (t : Thread α) : Prop :=
  match t.call, t.pc with
  | _, Pc.fatal _ => False
  | Call.AddUninitializedThreadsafe _, Pc.checkSlow => True
  | Call.AddUninitializedThreadsafe _, Pc.interlockedAdd => True
  | Call.AddUninitializedThreadsafe _, Pc.checkCapacity => True
  | Call.AddUninitializedThreadsafe _, Pc.returned => True
  | Call.AddUninitializedThreadsafe _, _ => False
  | Call.AddToArrayThreadSafe _, Pc.getDataPre => True
  | Call.AddToArrayThreadSafe _, _ => t.DataPreAdd = D

/-- The invariant of a run in which the calls `cs` share an array with base
address `D` and capacity `M`. -/
structure Inv {α : Type} (D M : Int) (cs : List (Call α)) (S : System α) : Prop where
  data : S.Array.Data = D
  max : S.Array.ArrayMax = M
  calls : S.Threads.map Thread.call = cs
  wf : ∀ (i : Nat) (t : Thread α), S.Threads[i]? = some t → t.wellFormed D
  num : S.Array.ArrayNum = (S.Threads.map Thread.held).sum
  range : ∀ (i : Nat) (t : Thread α), S.Threads[i]? = some t → t.pc.reserved = true →
    0 ≤ t.OldNum ∧ t.OldNum + t.call.Count ≤ S.Array.ArrayNum
  disj : ∀ (i j : Nat) (ti tj : Thread α), i ≠ j →
    S.Threads[i]? = some ti → S.Threads[j]? = some tj →
    ti.pc.reserved = true → tj.pc.reserved = true →
    ti.OldNum + ti.call.Count ≤ tj.OldNum ∨ tj.OldNum + tj.call.Count ≤ ti.OldNum
  cover : ∀ x, 0 ≤ x → x < S.Array.ArrayNum →
    ∃ (i : Nat) (t : Thread α), S.Threads[i]? = some t ∧ t.pc.reserved = true ∧
      t.OldNum ≤ x ∧ x < t.OldNum + t.call.Count
  mem : ∀ (i : Nat) (t : Thread α) (v : α), S.Threads[i]? = some t → t.stored = some v →
    S.Array.Mem (D + t.OldNum) = some v

/-- Static side conditions of a run: every count is non-negative, the counts
fit into the capacity, the capacity is an `int32`, and `CheckAddress` accepts
the address of every element that is appended. -/
structure Fits {α : Type} (CheckAddress : TArray α → Int → Bool) (M : Int)
    (cs : List (Call α)) : Prop where
  nonneg : ∀ c ∈ cs, 0 ≤ c.Count
  total : (cs.map Call.Count).sum ≤ M
  int32 : M ≤ MAX_int32
  address : ∀ (A : TArray α) (Element : Item α),
    Call.AddToArrayThreadSafe Element ∈ cs → CheckAddress A Element.addr = true

/-- Number of steps a thread still has to take before it has returned. -/
def Thread.remaining {α : Type} (t : Thread α) : Nat :=
  match t.call, t.pc with
  | Call.AddToArrayThreadSafe _, Pc.getDataPre => 7
  | Call.AddToArrayThreadSafe _, Pc.checkAddress => 6
  | Call.AddUninitializedThreadsafe _, Pc.getDataPre => 5
  | Call.AddUninitializedThreadsafe _, Pc.checkAddress => 4
  | Call.AddToArrayThreadSafe _, Pc.checkSlow => 5
  | Call.AddToArrayThreadSafe _, Pc.interlockedAdd => 4
  | Call.AddToArrayThreadSafe _, Pc.checkCapacity => 3
  | Call.AddUninitializedThreadsafe _, Pc.checkSlow => 3
  | Call.AddUninitializedThreadsafe _, Pc.interlockedAdd => 2
  | Call.AddUninitializedThreadsafe _, Pc.checkCapacity => 1
  | Call.AddToArrayThreadSafe _, Pc.construct => 2
  | Call.AddUninitializedThreadsafe _, Pc.construct => 1
  | _, Pc.checkData => 1
  | _, Pc.returned => 0
  | _, Pc.fatal _ => 0

/-- The thread will not execute its `InterlockedAdd` (again). -/
def Pc.settled : Pc → Bool
  | Pc.fatal _ => true
  | p => p.reserved

/-- The slots `s, s + 1, ..., s + K - 1`. -/
def InRange (s K x : Int) : Prop := s ≤ x ∧ x < s + K

instance (s K x : Int) : Decidable (InRange s K x) := by unfold InRange; infer_instance

/-- What holds once every call has returned: the returned values `s`, the final
`ArrayNum`, the partition of the slots, and the heap at the assigned slots. -/
structure Final {α : Type} (A : TArray α) (cs : List (Call α)) (S : System α)
    (s : List Int) : Prop where
  results : S.results = s.map some
  length : s.length = cs.length
  num : S.Array.ArrayNum = (cs.map Call.Count).sum
  max : S.Array.ArrayMax = A.ArrayMax
  data : S.Array.Data = A.Data
  disjoint : ∀ (i j : Nat) (si sj : Int) (ci cj : Call α), i ≠ j →
    s[i]? = some si → s[j]? = some sj → cs[i]? = some ci → cs[j]? = some cj →
    ∀ x, ¬ (InRange si ci.Count x ∧ InRange sj cj.Count x)
  cover : ∀ x : Int, (0 ≤ x ∧ x < (cs.map Call.Count).sum) ↔
    ∃ (i : Nat) (si : Int) (ci : Call α),
      s[i]? = some si ∧ cs[i]? = some ci ∧ InRange si ci.Count x
  mem : ∀ (i : Nat) (si : Int) (Element : Item α), s[i]? = some si →
    cs[i]? = some (Call.AddToArrayThreadSafe Element) →
    S.Array.Mem (A.Data + si) = some Element.value

/-- The ranges `[s_i, s_i + K_i)` are pairwise disjoint and together cover
exactly `[0, K_1 + ... + K_n)`. -/
def Partition (Ks s : List Int) : Prop :=
  s.length = Ks.length ∧
  (∀ (i j : Nat) (si sj Ki Kj : Int), i ≠ j →
    s[i]? = some si → s[j]? = some sj → Ks[i]? = some Ki → Ks[j]? = some Kj →
    ∀ x, ¬ (InRange si Ki x ∧ InRange sj Kj x)) ∧
  (∀ x : Int, (0 ≤ x ∧ x < Ks.sum) ↔
    ∃ (i : Nat) (si Ki : Int), s[i]? = some si ∧ Ks[i]? = some Ki ∧ InRange si Ki x)

end Concurrent

/-! ## The read/write guard -/

namespace Private

/-- The struct `FDisabledConcurrentCheck`: it has no members. -/
structure FDisabledConcurrentCheck where
  deriving DecidableEq

/-- Constructor of `FDisabledConcurrentCheck::FScopedConcurrentWriteCheck`: empty body. -/
def FDisabledConcurrentCheck.FScopedConcurrentWriteCheck.ctor
    (State : FDisabledConcurrentCheck) : Outcome Unit FDisabledConcurrentCheck :=
  Outcome.ret () State

/-- Destructor of `FDisabledConcurrentCheck::FScopedConcurrentWriteCheck`: empty body. -/
def FDisabledConcurrentCheck.FScopedConcurrentWriteCheck.dtor
    (State : FDisabledConcurrentCheck) : Outcome Unit FDisabledConcurrentCheck :=
  Outcome.ret () State

/-- Constructor of `FDisabledConcurrentCheck::FScopedConcurrentReadCheck`: empty body. -/
def FDisabledConcurrentCheck.FScopedConcurrentReadCheck.ctor
    (State : FDisabledConcurrentCheck) : Outcome Unit FDisabledConcurrentCheck :=
  Outcome.ret () State

/-- Destructor of `FDisabledConcurrentCheck::FScopedConcurrentReadCheck`: empty body. -/
def FDisabledConcurrentCheck.FScopedConcurrentReadCheck.dtor
    (State : FDisabledConcurrentCheck) : Outcome Unit FDisabledConcurrentCheck :=
  Outcome.ret () State

/-- The struct `FEnabledConcurrentCheck`: the two `mutable int32` counters. -/
structure FEnabledConcurrentCheck where
  ConcurrentReaders : Int
  ConcurrentWriters : Int
  deriving DecidableEq

/-- Constructor `FEnabledConcurrentCheck()`: both counters start at 0. -/
def FEnabledConcurrentCheck.new : FEnabledConcurrentCheck :=
  { ConcurrentReaders := 0, ConcurrentWriters := 0 }

/-- The call `FPlatformAtomics::InterlockedIncrement(&Value)`: the stored and
returned new value. -/
def InterlockedIncrement (Value : Int) : Int := wrap32 (Value + 1)

/-- The call `FPlatformAtomics::InterlockedDecrement(&Value)`: the stored and
returned new value. -/
def InterlockedDecrement (Value : Int) : Int := wrap32 (Value - 1)

/-- Constructor of `FEnabledConcurrentCheck::FScopedConcurrentWriteCheck`. -/
def FEnabledConcurrentCheck.FScopedConcurrentWriteCheck.ctor (b : Build)
    (State : FEnabledConcurrentCheck) : Outcome Unit FEnabledConcurrentCheck :=
  let Writers := InterlockedIncrement State.ConcurrentWriters
  let State := { State with ConcurrentWriters := Writers }
  check b.DO_CHECK (decide (Writers = 1)) Fatal.WritersNotOne State

/-- Destructor of `FEnabledConcurrentCheck::FScopedConcurrentWriteCheck`. -/
def FEnabledConcurrentCheck.FScopedConcurrentWriteCheck.dtor (b : Build)
    (State : FEnabledConcurrentCheck) : Outcome Unit FEnabledConcurrentCheck :=
  let Writers := InterlockedDecrement State.ConcurrentWriters
  let State := { State with ConcurrentWriters := Writers }
  check b.DO_CHECK (decide (Writers = 0)) Fatal.WritersNotZero State

/-- Constructor of `FEnabledConcurrentCheck::FScopedConcurrentReadCheck`. -/
def FEnabledConcurrentCheck.FScopedConcurrentReadCheck.ctor (b : Build)
    (State : FEnabledConcurrentCheck) : Outcome Unit FEnabledConcurrentCheck :=
  let Readers := InterlockedIncrement State.ConcurrentReaders
  let State := { State with ConcurrentReaders := Readers }
  check b.DO_CHECK (decide (Readers = 1)) Fatal.ReadersNotOne State

/-- Destructor of `FEnabledConcurrentCheck::FScopedConcurrentReadCheck`. -/
def FEnabledConcurrentCheck.FScopedConcurrentReadCheck.dtor (b : Build)
    (State : FEnabledConcurrentCheck) : Outcome Unit FEnabledConcurrentCheck :=
  let Readers := InterlockedDecrement State.ConcurrentReaders
  let State := { State with ConcurrentReaders := Readers }
  check b.DO_CHECK (decide (Readers = 0)) Fatal.ReadersNotZero State

end Private

namespace Concurrent

open Private

/-- The alias `FConcurrent`: `std::conditional_t` on `bConcurrencyCheckEnabled`. -/
def FConcurrent : Bool → Type
  | true => FEnabledConcurrentCheck
  | false => FDisabledConcurrentCheck

/-- Constructor of `FWriteOnlyScope`, that is of `FConcurrent::FScopedConcurrentWriteCheck`. -/
def FWriteOnlyScope.ctor : (e : Bool) → Build → FConcurrent e → Outcome Unit (FConcurrent e)
  | true, b, State => FEnabledConcurrentCheck.FScopedConcurrentWriteCheck.ctor b State
  | false, _, State => FDisabledConcurrentCheck.FScopedConcurrentWriteCheck.ctor State

/-- Destructor of `FWriteOnlyScope`. -/
def FWriteOnlyScope.dtor : (e : Bool) → Build → FConcurrent e → Outcome Unit (FConcurrent e)
  | true, b, State => FEnabledConcurrentCheck.FScopedConcurrentWriteCheck.dtor b State
  | false, _, State => FDisabledConcurrentCheck.FScopedConcurrentWriteCheck.dtor State

/-- Constructor of `FReadOnlyScope`, that is of `FConcurrent::FScopedConcurrentReadCheck`. -/
def FReadOnlyScope.ctor : (e : Bool) → Build → FConcurrent e → Outcome Unit (FConcurrent e)
  | true, b, State => FEnabledConcurrentCheck.FScopedConcurrentReadCheck.ctor b State
  | false, _, State => FDisabledConcurrentCheck.FScopedConcurrentReadCheck.ctor State

/-- Destructor of `FReadOnlyScope`. -/
def FReadOnlyScope.dtor : (e : Bool) → Build → FConcurrent e → Outcome Unit (FConcurrent e)
  | true, b, State => FEnabledConcurrentCheck.FScopedConcurrentReadCheck.dtor b State
  | false, _, State => FDisabledConcurrentCheck.FScopedConcurrentReadCheck.dtor State

/-- The engine's critical section as seen by the running thread: how many
times that thread holds it.  The engine's critical section may be entered
again by the thread that holds it. -/
structure FCriticalSection where
  Depth : Nat
  deriving DecidableEq

/-- The class `TReadWriteLock<T, bConcurrencyCheckEnabled>`: its three members
(the member `Type` is spelled `Type_`). -/
structure TReadWriteLock (T : Type) (bConcurrencyCheckEnabled : Bool) where
  ReadWriteState : FConcurrent bConcurrencyCheckEnabled
  Mutex : FCriticalSection
  Type_ : T

/-- What code running on a guard can change: the guard and the captures `E` of
the closures. -/
abbrev World (T E : Type) (e : Bool) : Type := TReadWriteLock T e × E

/-- A closure handed to the guard: called with a view of the payload, it acts
on the world and may hit an assertion. -/
abbrev Closure (T E : Type) (e : Bool) : Type := T → World T E e → Outcome Unit (World T E e)

/-- Run a scope constructor or destructor on the member `ReadWriteState`. -/
def TReadWriteLock.onState {T E : Type} {e : Bool}
    (op : FConcurrent e → Outcome Unit (FConcurrent e)) (w : World T E e) :
    Outcome Unit (World T E e) :=
  match op w.1.ReadWriteState with
  | Outcome.ret _ State => Outcome.ret () ({ w.1 with ReadWriteState := State }, w.2)
  | Outcome.fatal f State => Outcome.fatal f ({ w.1 with ReadWriteState := State }, w.2)

/-- Constructor of `FScopeLock Lock(&Mutex)`: the running thread enters the
critical section. -/
def FScopeLock.ctor {T E : Type} {e : Bool} (w : World T E e) : Outcome Unit (World T E e) :=
  Outcome.ret () ({ w.1 with Mutex := { Depth := w.1.Mutex.Depth + 1 } }, w.2)

/-- Destructor of `FScopeLock`: the running thread leaves the critical section. -/
def FScopeLock.dtor {T E : Type} {e : Bool} (w : World T E e) : Outcome Unit (World T E e) :=
  Outcome.ret () ({ w.1 with Mutex := { Depth := w.1.Mutex.Depth - 1 } }, w.2)

/-- Method `TReadWriteLock::ReadUnsafe(Function)`. -/
def ReadUnsafe {T E : Type} {e : Bool} (b : Build) (Function : Closure T E e)
    (w : World T E e) : Outcome Unit (World T E e) :=
  (TReadWriteLock.onState (FWriteOnlyScope.ctor e b) w).bind fun _ w =>
  (Function w.1.Type_ w).bind fun _ w =>
  TReadWriteLock.onState (FWriteOnlyScope.dtor e b) w

/-- Method `TReadWriteLock::ReadLocked(Function)`. -/
def ReadLocked {T E : Type} {e : Bool} (b : Build) (Function : Closure T E e)
    (w : World T E e) : Outcome Unit (World T E e) :=
  (FScopeLock.ctor w).bind fun _ w =>
  (TReadWriteLock.onState (FWriteOnlyScope.ctor e b) w).bind fun _ w =>
  (TReadWriteLock.onState (FReadOnlyScope.ctor e b) w).bind fun _ w =>
  (Function w.1.Type_ w).bind fun _ w =>
  (TReadWriteLock.onState (FReadOnlyScope.dtor e b) w).bind fun _ w =>
  (TReadWriteLock.onState (FWriteOnlyScope.dtor e b) w).bind fun _ w =>
  FScopeLock.dtor w

/-- Method `TReadWriteLock::ReadWriteLocked(Function)`; the closure reaches the
mutable payload through the world it acts on. -/
def ReadWriteLocked {T E : Type} {e : Bool} (b : Build) (Function : Closure T E e)
    (w : World T E e) : Outcome Unit (World T E e) :=
  (FScopeLock.ctor w).bind fun _ w =>
  (TReadWriteLock.onState (FWriteOnlyScope.ctor e b) w).bind fun _ w =>
  (TReadWriteLock.onState (FReadOnlyScope.ctor e b) w).bind fun _ w =>
  (Function w.1.Type_ w).bind fun _ w =>
  (TReadWriteLock.onState (FReadOnlyScope.dtor e b) w).bind fun _ w =>
  (TReadWriteLock.onState (FWriteOnlyScope.dtor e b) w).bind fun _ w =>
  FScopeLock.dtor w

/-- The three access operations of the guard. -/
inductive Access where
  | ReadUnsafe
  | ReadLocked
  | ReadWriteLocked
  deriving DecidableEq

/-- Call the operation named by `a`. -/
def Access.call {T E : Type} {e : Bool} (a : Access) (b : Build) (Function : Closure T E e) :
    World T E e → Outcome Unit (World T E e) :=
  match a with
  | Access.ReadUnsafe => Concurrent.ReadUnsafe b Function
  | Access.ReadLocked => Concurrent.ReadLocked b Function
  | Access.ReadWriteLocked => Concurrent.ReadWriteLocked b Function

/-- A closure that does not access the guard: it reads the payload it is
handed and updates its captures. -/
def Closure.reading {T E : Type} {e : Bool} (f : T → E → E) : Closure T E e :=
  fun v w => Outcome.ret () (w.1, f v w.2)

/-- A closure that does not access the guard but writes the payload it is
handed (for `ReadWriteLocked`) and updates its captures. -/
def Closure.writing {T E : Type} {e : Bool} (f : T → E → T × E) : Closure T E e :=
  fun v w => Outcome.ret () ({ w.1 with Type_ := (f v w.2).1 }, (f v w.2).2)

/-- A closure that looks at the guard while it runs, without changing it:
it records what it sees in its captures. -/
def Closure.observing {T E : Type} {e : Bool} (f : TReadWriteLock T e → E → E) :
    Closure T E e :=
  fun _ w => Outcome.ret () (w.1, f w.1 w.2)

/-- A closure that calls operation `a` of the same guard with closure `Inner`. -/
def Closure.nested {T E : Type} {e : Bool} (a : Access) (b : Build) (Inner : Closure T E e) :
    Closure T E e :=
  fun _ w => a.call b Inner w

/-- A guard in the Idle state of a checked build, with payload `v`. -/
def TReadWriteLock.idle {T : Type} (v : T) : TReadWriteLock T true :=
  { ReadWriteState := FEnabledConcurrentCheck.new, Mutex := { Depth := 0 }, Type_ := v }

/-- A guard of an unchecked build, with payload `v`. -/
def TReadWriteLock.unchecked {T : Type} (v : T) : TReadWriteLock T false :=
  { ReadWriteState := {}, Mutex := { Depth := 0 }, Type_ := v }

/-- A sequence of accesses made one after the other. -/
def runAccesses {T E : Type} {e : Bool} (b : Build) :
    List (Access × Closure T E e) → World T E e → Outcome Unit (World T E e)
  | [], w => Outcome.ret () w
  | (a, Function) :: rest, w => (a.call b Function w).bind fun _ w => runAccesses b rest w

/-! ### Interleaved accesses to a checked guard

Each thread has a stack of accesses in progress (innermost first): a closure
may itself call into the guard.  A move of a thread either starts a new
access (from outside any access, or from inside the closure of the innermost
one) or executes the next line of the innermost access.  A line is the
declaration or the destruction of one scope object, so a token acquisition or
release (the interlocked update together with the `check` on the value it
returned) is one move; a failed `check` ends the run.  This grain is exact
for one thread.  Between threads the update and its `check` are two
statements that other threads can come between: the finer system further
down has them as separate moves, and the states of the guard are studied there. -/

/-- Program points of an access, in source order. -/
inductive GuardPc where
  /-- The declaration `FScopeLock Lock(&Mutex)`. -/
  | lock
  /-- The declaration of the `FWriteOnlyScope`. -/
  | writeCtor
  /-- The declaration `FReadOnlyScope ReadScope(ReadWriteState)`. -/
  | readCtor
  /-- The closure `Function` is running. -/
  | body
  /-- Destruction of the `FReadOnlyScope`. -/
  | readDtor
  /-- Destruction of the `FWriteOnlyScope`. -/
  | writeDtor
  /-- Destruction of the `FScopeLock`. -/
  | unlock
  deriving DecidableEq

/-- An access in progress. -/
structure Frame where
  access : Access
  pc : GuardPc
  deriving DecidableEq

/-- First line of an access. -/
def Access.entry : Access → GuardPc
  | Access.ReadUnsafe => GuardPc.writeCtor
  | Access.ReadLocked => GuardPc.lock
  | Access.ReadWriteLocked => GuardPc.lock

/-- The line after `pc`: locals are destroyed in the reverse order of their
declaration; `none` when the access returns. -/
def Access.next : Access → GuardPc → Option GuardPc
  | Access.ReadUnsafe, GuardPc.writeCtor => some GuardPc.body
  | Access.ReadUnsafe, GuardPc.body => some GuardPc.writeDtor
  | Access.ReadUnsafe, _ => none
  | _, GuardPc.lock => some GuardPc.writeCtor
  | _, GuardPc.writeCtor => some GuardPc.readCtor
  | _, GuardPc.readCtor => some GuardPc.body
  | _, GuardPc.body => some GuardPc.readDtor
  | _, GuardPc.readDtor => some GuardPc.writeDtor
  | _, GuardPc.writeDtor => some GuardPc.unlock
  | _, GuardPc.unlock => none

/-- A checked guard shared by threads: its counters, the critical section
(owning thread and how often it holds it), and the stack of every thread. -/
structure GuardSystem where
  State : FEnabledConcurrentCheck
  Owner : Option (Nat × Nat)
  Stacks : List (List Frame)
  deriving DecidableEq

/-- A new guard and `n` threads outside any access. -/
def GuardSystem.init (n : Nat) : GuardSystem :=
  { State := FEnabledConcurrentCheck.new, Owner := none, Stacks := List.replicate n [] }

/-- What a thread may do next. -/
inductive Move where
  /-- Start access `a`. -/
  | call (a : Access)
  /-- Execute the next line of the innermost access (at `body`: the closure returns). -/
  | step
  deriving DecidableEq

/-- The stack after the innermost access `fr` has executed its line. -/
def Frame.advance (fr : Frame) (rest : List Frame) : List Frame :=
  match fr.access.next fr.pc with
  | some pc => { fr with pc := pc } :: rest
  | none => rest

/-- Run a scope constructor or destructor of thread `i` on the counters. -/
def GuardSystem.scope (G : GuardSystem) (i : Nat) (fr : Frame) (rest : List Frame)
    (op : FEnabledConcurrentCheck → Outcome Unit FEnabledConcurrentCheck) :
    Outcome Unit GuardSystem :=
  match op G.State with
  | Outcome.ret _ State =>
    Outcome.ret () { G with State := State, Stacks := G.Stacks.set i (fr.advance rest) }
  | Outcome.fatal f State => Outcome.fatal f { G with State := State }

/-- One move of thread `i`.  A move that is not possible (no such thread,
nothing to execute, a call from a place that is not a closure, the critical
section held by another thread) leaves the system as it is. -/
def GuardSystem.step (b : Build) (G : GuardSystem) (i : Nat) (m : Move) :
    Outcome Unit GuardSystem :=
  match G.Stacks[i]?, m with
  | none, _ => Outcome.ret () G
  | some [], Move.call a =>
    Outcome.ret () { G with Stacks := G.Stacks.set i [{ access := a, pc := a.entry }] }
  | some (fr :: rest), Move.call a =>
    if fr.pc = GuardPc.body then
      Outcome.ret ()
        { G with Stacks := G.Stacks.set i ({ access := a, pc := a.entry } :: fr :: rest) }
    else Outcome.ret () G
  | some [], Move.step => Outcome.ret () G
  | some (fr :: rest), Move.step =>
    match fr.pc with
    | GuardPc.lock =>
      match G.Owner with
      | none =>
        Outcome.ret () { G with Owner := some (i, 1), Stacks := G.Stacks.set i (fr.advance rest) }
      | some (j, k) =>
        if j = i then
          Outcome.ret ()
            { G with Owner := some (i, k + 1), Stacks := G.Stacks.set i (fr.advance rest) }
        else Outcome.ret () G
    | GuardPc.writeCtor =>
      G.scope i fr rest (FEnabledConcurrentCheck.FScopedConcurrentWriteCheck.ctor b)
    | GuardPc.readCtor =>
      G.scope i fr rest (FEnabledConcurrentCheck.FScopedConcurrentReadCheck.ctor b)
    | GuardPc.body => Outcome.ret () { G with Stacks := G.Stacks.set i (fr.advance rest) }
    | GuardPc.readDtor =>
      G.scope i fr rest (FEnabledConcurrentCheck.FScopedConcurrentReadCheck.dtor b)
    | GuardPc.writeDtor =>
      G.scope i fr rest (FEnabledConcurrentCheck.FScopedConcurrentWriteCheck.dtor b)
    | GuardPc.unlock =>
      Outcome.ret ()
        { G with
          Owner := (match G.Owner with
            | some (j, k) => if k ≤ 1 then none else some (j, k - 1)
            | none => none),
          Stacks := G.Stacks.set i (fr.advance rest) }

/-- Run a list of moves; a failed assertion ends the run. -/
def GuardSystem.run (b : Build) : GuardSystem → List (Nat × Move) → Outcome Unit GuardSystem
  | G, [] => Outcome.ret () G
  | G, (i, m) :: rest => (G.step b i m).bind fun _ G' => GuardSystem.run b G' rest

/-- The access holds the writer token: its `FWriteOnlyScope` is constructed
and not yet destroyed. -/
def Frame.holdsWriter (fr : Frame) : Int :=
  match fr.pc with
  | GuardPc.readCtor => 1
  | GuardPc.body => 1
  | GuardPc.readDtor => 1
  | GuardPc.writeDtor => 1
  | _ => 0

/-- The access holds the reader token: its `FReadOnlyScope` is constructed
and not yet destroyed. -/
def Frame.holdsReader (fr : Frame) : Int :=
  match fr.access, fr.pc with
  | Access.ReadUnsafe, _ => 0
  | _, GuardPc.body => 1
  | _, GuardPc.readDtor => 1
  | _, _ => 0

/-- The program points an access can be at. -/
def Frame.ok (fr : Frame) : Prop :=
  fr.access = Access.ReadUnsafe →
    fr.pc = GuardPc.writeCtor ∨ fr.pc = GuardPc.body ∨ fr.pc = GuardPc.writeDtor

/-! ### Predicates on the interleaved accesses -/

/-- Sum of `f` over all accesses in progress. -/
def total (f : Frame → Int) (Stacks : List (List Frame)) : Int :=
  (Stacks.map fun st => (st.map f).sum).sum

/-- The invariant of the checked guard. -/
structure GuardInv (G : GuardSystem) : Prop where
  ok : ∀ st ∈ G.Stacks, ∀ fr ∈ st, Frame.ok fr
  writers : G.State.ConcurrentWriters = total Frame.holdsWriter G.Stacks
  readers : G.State.ConcurrentReaders = total Frame.holdsReader G.Stacks
  one : G.State.ConcurrentWriters ≤ 1

/-- Counters of the state `Idle`: no reader, no writer. -/
def Idle : FEnabledConcurrentCheck := { ConcurrentReaders := 0, ConcurrentWriters := 0 }

/-- Counters of the state `WriterHeld`: no reader, one writer. -/
def WriterHeld : FEnabledConcurrentCheck := { ConcurrentReaders := 0, ConcurrentWriters := 1 }

/-- Counters of the state `ReaderAndWriterHeld`: one reader, one writer. -/
def ReaderAndWriterHeld : FEnabledConcurrentCheck :=
  { ConcurrentReaders := 1, ConcurrentWriters := 1 }

/-- A checked guard with the given counters, depth of the critical section and payload. -/
def TReadWriteLock.checked {T : Type} (State : FEnabledConcurrentCheck) (Depth : Nat) (v : T) :
    TReadWriteLock T true :=
  { ReadWriteState := State, Mutex := { Depth := Depth }, Type_ := v }

/-- The moves of a thread that makes access `a` alone: the call and `k` lines. -/
def soloMoves (a : Access) (k : Nat) : List (Nat × Move) :=
  (0, Move.call a) :: List.replicate k (0, Move.step)

/-- The counters after each of the first `n` lines of access `a` made alone
on a new guard. -/
def soloTrace (b : Build) (a : Access) (n : Nat) : List FEnabledConcurrentCheck :=
  (List.range n).map fun k =>
    (GuardSystem.run b (GuardSystem.init 1) (soloMoves a k)).state.State

/-! ### Interleaved accesses, with the update and its check as separate moves

The same threads and stacks, but a scope constructor or destructor now takes
two moves: the interlocked update, whose returned value is kept in the local
`Writers` or `Readers` of the access, and the `check` on that value. -/

/-- The interlocked update made by the scope line `pc`: the returned value and
the new counters. -/
def GuardPc.update (pc : GuardPc) (State : FEnabledConcurrentCheck) :
    Int × FEnabledConcurrentCheck :=
  match pc with
  | GuardPc.writeCtor =>
    (InterlockedIncrement State.ConcurrentWriters,
      { State with ConcurrentWriters := InterlockedIncrement State.ConcurrentWriters })
  | GuardPc.writeDtor =>
    (InterlockedDecrement State.ConcurrentWriters,
      { State with ConcurrentWriters := InterlockedDecrement State.ConcurrentWriters })
  | GuardPc.readCtor =>
    (InterlockedIncrement State.ConcurrentReaders,
      { State with ConcurrentReaders := InterlockedIncrement State.ConcurrentReaders })
  | GuardPc.readDtor =>
    (InterlockedDecrement State.ConcurrentReaders,
      { State with ConcurrentReaders := InterlockedDecrement State.ConcurrentReaders })
  | _ => (0, State)

/-- The `check` made by the scope line `pc` on the value `v` its update returned. -/
def GuardPc.check (b : Build) (pc : GuardPc) (v : Int) (State : FEnabledConcurrentCheck) :
    Outcome Unit FEnabledConcurrentCheck :=
  match pc with
  | GuardPc.writeCtor => UE.check b.DO_CHECK (decide (v = 1)) Fatal.WritersNotOne State
  | GuardPc.writeDtor => UE.check b.DO_CHECK (decide (v = 0)) Fatal.WritersNotZero State
  | GuardPc.readCtor => UE.check b.DO_CHECK (decide (v = 1)) Fatal.ReadersNotOne State
  | GuardPc.readDtor => UE.check b.DO_CHECK (decide (v = 0)) Fatal.ReadersNotZero State
  | _ => Outcome.ret () State

/-- An access in progress together with the local `Writers` or `Readers`:
`some v` between an interlocked update that returned `v` and its `check`. -/
structure FineFrame where
  access : Access
  pc : GuardPc
  pending : Option Int
  deriving DecidableEq

/-- A checked guard shared by threads, at the finer grain. -/
structure FineSystem where
  State : FEnabledConcurrentCheck
  Owner : Option (Nat × Nat)
  Stacks : List (List FineFrame)
  deriving DecidableEq

/-- A new guard and `n` threads outside any access. -/
def FineSystem.init (n : Nat) : FineSystem :=
  { State := FEnabledConcurrentCheck.new, Owner := none, Stacks := List.replicate n [] }

/-- The stack after the innermost access `fr` has finished its line. -/
def FineFrame.advance (fr : FineFrame) (rest : List FineFrame) : List FineFrame :=
  match fr.access.next fr.pc with
  | some pc => { access := fr.access, pc := pc, pending := none } :: rest
  | none => rest

/-- One move of thread `i` at the finer grain. -/
def FineSystem.step (b : Build) (G : FineSystem) (i : Nat) (m : Move) :
    Outcome Unit FineSystem :=
  match G.Stacks[i]?, m with
  | none, _ => Outcome.ret () G
  | some [], Move.call a =>
    Outcome.ret ()
      { G with Stacks := G.Stacks.set i [{ access := a, pc := a.entry, pending := none }] }
  | some (fr :: rest), Move.call a =>
    if fr.pc = GuardPc.body then
      Outcome.ret ()
        { G with Stacks :=
            G.Stacks.set i ({ access := a, pc := a.entry, pending := none } :: fr :: rest) }
    else Outcome.ret () G
  | some [], Move.step => Outcome.ret () G
  | some (fr :: rest), Move.step =>
    match fr.pc with
    | GuardPc.lock =>
      match G.Owner with
      | none =>
        Outcome.ret () { G with Owner := some (i, 1), Stacks := G.Stacks.set i (fr.advance rest) }
      | some (j, k) =>
        if j = i then
          Outcome.ret ()
            { G with Owner := some (i, k + 1), Stacks := G.Stacks.set i (fr.advance rest) }
        else Outcome.ret () G
    | GuardPc.body => Outcome.ret () { G with Stacks := G.Stacks.set i (fr.advance rest) }
    | GuardPc.unlock =>
      Outcome.ret ()
        { G with
          Owner := (match G.Owner with
            | some (j, k) => if k ≤ 1 then none else some (j, k - 1)
            | none => none),
          Stacks := G.Stacks.set i (fr.advance rest) }
    | pc =>
      match fr.pending with
      | none =>
        Outcome.ret ()
          { G with
            State := (pc.update G.State).2,
            Stacks := G.Stacks.set i ({ fr with pending := some (pc.update G.State).1 } :: rest) }
      | some v =>
        match pc.check b v G.State with
        | Outcome.ret _ State =>
          Outcome.ret () { G with State := State, Stacks := G.Stacks.set i (fr.advance rest) }
        | Outcome.fatal f State => Outcome.fatal f { G with State := State }

/-- Run a list of moves at the finer grain; a failed assertion ends the run. -/
def FineSystem.run (b : Build) : FineSystem → List (Nat × Move) → Outcome Unit FineSystem
  | G, [] => Outcome.ret () G
  | G, (i, m) :: rest => (G.step b i m).bind fun _ G' => FineSystem.run b G' rest

/-- No update is waiting for a `check` that will fail: every value returned by
an interlocked update and not yet checked is the one its `check` demands. -/
def FineSystem.noneDoomed (b : Build) (G : FineSystem) : Prop :=
  ∀ st ∈ G.Stacks, ∀ fr ∈ st, ∀ v, fr.pending = some v →
    (fr.pc.check b v G.State).failure = none

/-- The access has incremented the counter of writers and not yet decremented it. -/
def FineFrame.countsWriter (fr : FineFrame) : Int :=
  match fr.pc, fr.pending with
  | GuardPc.writeCtor, some _ => 1
  | GuardPc.readCtor, _ => 1
  | GuardPc.body, _ => 1
  | GuardPc.readDtor, _ => 1
  | GuardPc.writeDtor, none => 1
  | _, _ => 0

/-- The access holds the writer token: its increment has passed its `check`
and it has not yet decremented. -/
def FineFrame.holdsWriter (fr : FineFrame) : Int :=
  match fr.pc, fr.pending with
  | GuardPc.readCtor, _ => 1
  | GuardPc.body, _ => 1
  | GuardPc.readDtor, _ => 1
  | GuardPc.writeDtor, none => 1
  | _, _ => 0

/-- The access has incremented the counter of writers to 1 and not yet checked. -/
def FineFrame.passingWriter (fr : FineFrame) : Int :=
  match fr.pc, fr.pending with
  | GuardPc.writeCtor, some v => if v = 1 then 1 else 0
  | _, _ => 0

/-- The access has incremented the counter of readers and not yet decremented it. -/
def FineFrame.countsReader (fr : FineFrame) : Int :=
  match fr.access, fr.pc, fr.pending with
  | Access.ReadUnsafe, _, _ => 0
  | _, GuardPc.readCtor, some _ => 1
  | _, GuardPc.body, _ => 1
  | _, GuardPc.readDtor, none => 1
  | _, _, _ => 0

/-- The program points an access can be at, at the finer grain. -/
def FineFrame.ok (fr : FineFrame) : Prop :=
  (fr.access = Access.ReadUnsafe →
    fr.pc = GuardPc.writeCtor ∨ fr.pc = GuardPc.body ∨ fr.pc = GuardPc.writeDtor) ∧
  (fr.pc = GuardPc.lock ∨ fr.pc = GuardPc.body ∨ fr.pc = GuardPc.unlock → fr.pending = none)

/-- Sum of `f` over all accesses in progress, at the finer grain. -/
def fineTotal (f : FineFrame → Int) (Stacks : List (List FineFrame)) : Int :=
  (Stacks.map fun st => (st.map f).sum).sum

/-- The invariant of the checked guard at the finer grain, for `n` threads. -/
structure FineInv (n : Nat) (G : FineSystem) : Prop where
  len : G.Stacks.length = n
  ok : ∀ st ∈ G.Stacks, ∀ fr ∈ st, FineFrame.ok fr
  tails : ∀ st ∈ G.Stacks, ∀ fr ∈ st.tail, fr.pc = GuardPc.body
  writers : G.State.ConcurrentWriters = fineTotal FineFrame.countsWriter G.Stacks
  readers : G.State.ConcurrentReaders = fineTotal FineFrame.countsReader G.Stacks
  one : fineTotal FineFrame.holdsWriter G.Stacks + fineTotal FineFrame.passingWriter G.Stacks ≤ 1

end Concurrent

/-! # Theorems -/

namespace Concurrent

open Private

/-! ## Sequential facts about the array operations -/

theorem wrap32_of_isInt32 {x : Int} (h : IsInt32 x) : wrap32 x = x := by
  unfold IsInt32 at h
  unfold wrap32
  omega

/-- Closed form of `AddUninitializedThreadsafe`. -/
theorem AddUninitializedThreadsafe_eq {α : Type} (b : Build) (Count : Int) (A : TArray α) :
    AddUninitializedThreadsafe b Count A =
      if b.DO_GUARD_SLOW = true ∧ Count < 0 then Outcome.fatal Fatal.CountNonNegative A
      else if b.DO_CHECK = true ∧ A.ArrayMax < wrap32 (A.ArrayNum + Count) then
        Outcome.fatal Fatal.Capacity { A with ArrayNum := wrap32 (A.ArrayNum + Count) }
      else Outcome.ret A.ArrayNum { A with ArrayNum := wrap32 (A.ArrayNum + Count) } := by
  unfold AddUninitializedThreadsafe check TArray.InterlockedAddNum
  by_cases h1 : b.DO_GUARD_SLOW = true <;> by_cases h2 : Count < 0 <;>
    by_cases h3 : b.DO_CHECK = true <;>
    by_cases h4 : A.ArrayMax < wrap32 (A.ArrayNum + Count) <;>
    simp [Outcome.bind, h1, h2, h3, h4, not_lt.mp, not_le.mpr, le_of_lt]

/-- Closed form of `AddThreadsafe`. -/
theorem AddThreadsafe_eq {α : Type} (b : Build) (CheckAddress : TArray α → Int → Bool)
    (Item : Item α) (A : TArray α) :
    AddThreadsafe b CheckAddress Item A =
      if CheckAddress A Item.addr = false then Outcome.fatal Fatal.Address A
      else if b.DO_GUARD_SLOW = true ∧ (1 : Int) < 0 then Outcome.fatal Fatal.CountNonNegative A
      else if b.DO_CHECK = true ∧ A.ArrayMax < wrap32 (A.ArrayNum + 1) then
        Outcome.fatal Fatal.Capacity { A with ArrayNum := wrap32 (A.ArrayNum + 1) }
      else Outcome.ret A.ArrayNum
        { A with ArrayNum := wrap32 (A.ArrayNum + 1),
                 Mem := fun q => if q = A.Data + A.ArrayNum then some Item.value else A.Mem q } := by
  simp only [AddThreadsafe, EmplaceThreadsafe, AddUninitializedThreadsafe_eq, check,
    TArray.construct]
  by_cases h0 : CheckAddress A Item.addr = true <;>
    by_cases h3 : b.DO_CHECK = true <;>
    by_cases h4 : A.ArrayMax < wrap32 (A.ArrayNum + 1) <;>
    simp [Outcome.bind, h0, h3, h4]

/-- Closed form of `AddToArrayThreadSafe`: it fails exactly where `AddThreadsafe`
fails and otherwise ends in the same array state. -/
theorem AddToArrayThreadSafe_eq {α : Type} (b : Build) (CheckAddress : TArray α → Int → Bool)
    (Element : Item α) (A : TArray α) :
    AddToArrayThreadSafe b CheckAddress Element A =
      (AddThreadsafe b CheckAddress Element A).bind fun _ A' => Outcome.ret () A' := by
  unfold AddToArrayThreadSafe
  rw [AddThreadsafe_eq]
  unfold check
  by_cases h0 : CheckAddress A Element.addr = true <;>
    by_cases h3 : b.DO_CHECK = true <;>
    by_cases h4 : A.ArrayMax < wrap32 (A.ArrayNum + 1) <;>
    simp [Outcome.bind, h0, h3, h4]

/-- Where the reservation does not overflow `int32`, a checked build stops every
reservation that exceeds the capacity, with the heap untouched. -/
theorem AddUninitializedThreadsafe_fatal_of_no_overflow {α : Type} (b : Build)
    (hb : b.DO_CHECK = true) (Count : Int) (A : TArray α) (hC : 0 ≤ Count)
    (h0 : 0 ≤ A.ArrayNum) (hov : A.ArrayNum + Count ≤ MAX_int32)
    (hcap : A.ArrayMax < A.ArrayNum + Count) :
    (AddUninitializedThreadsafe b Count A).failure = some Fatal.Capacity ∧
      (AddUninitializedThreadsafe b Count A).state.Mem = A.Mem := by
  have hw : wrap32 (A.ArrayNum + Count) = A.ArrayNum + Count :=
    wrap32_of_isInt32 ⟨by omega, by unfold MAX_int32 at hov; omega⟩
  rw [AddUninitializedThreadsafe_eq]
  have h1 : ¬ (b.DO_GUARD_SLOW = true ∧ Count < 0) := fun h => by omega
  have h2 : b.DO_CHECK = true ∧ A.ArrayMax < wrap32 (A.ArrayNum + Count) := ⟨hb, by omega⟩
  rw [if_neg h1, if_pos h2]
  exact ⟨rfl, rfl⟩

/-! ## Invariant of the interleaved execution -/

theorem getElem?_set_cases {β : Type} {l : List β} {i j : Nat} {a u : β}
    (h : (l.set i a)[j]? = some u) : (j = i ∧ u = a) ∨ (j ≠ i ∧ l[j]? = some u) := by
  rw [List.getElem?_set] at h
  by_cases hij : i = j
  · subst hij
    rw [if_pos rfl] at h
    by_cases hl : i < l.length
    · rw [if_pos hl] at h
      exact Or.inl ⟨rfl, (Option.some.inj h).symm⟩
    · rw [if_neg hl] at h
      exact absurd h (by simp)
  · rw [if_neg hij] at h
    exact Or.inr ⟨fun e => hij e.symm, h⟩

theorem getElem?_set_self_of_some {β : Type} {l : List β} {i : Nat} {t a : β}
    (h : l[i]? = some t) : (l.set i a)[i]? = some a := by
  obtain ⟨hl, _⟩ := List.getElem?_eq_some.mp h
  rw [List.getElem?_set, if_pos rfl, if_pos hl]

theorem getElem?_set_other {β : Type} {l : List β} {i j : Nat} {a u : β}
    (hne : j ≠ i) (h : l[j]? = some u) : (l.set i a)[j]? = some u := by
  rw [List.getElem?_set, if_neg (fun e => hne e.symm)]
  exact h

theorem sum_map_set {β : Type} (f : β → Int) :
    ∀ (l : List β) (i : Nat) (t a : β), l[i]? = some t →
      ((l.set i a).map f).sum = (l.map f).sum - f t + f a
  | [], i, t, a, h => by simp at h
  | x :: l, 0, t, a, h => by
    simp at h
    subst h
    simp
    omega
  | x :: l, i + 1, t, a, h => by
    simp at h
    have ih := sum_map_set f l i t a h
    simp only [List.set_cons_succ, List.map_cons, List.sum_cons, ih]
    omega

theorem map_call_set {α : Type} {l : List (Thread α)} {i : Nat} {t t' : Thread α}
    (hi : l[i]? = some t) (hcall : t'.call = t.call) :
    (l.set i t').map Thread.call = l.map Thread.call := by
  apply List.ext_getElem?
  intro j
  rw [List.getElem?_map, List.getElem?_map, List.getElem?_set]
  by_cases hij : i = j
  · subst hij
    obtain ⟨hl, _⟩ := List.getElem?_eq_some.mp hi
    rw [if_pos rfl, if_pos hl, hi]
    simp [hcall]
  · rw [if_neg hij]

/-- A step that changes neither `ArrayNum`, `ArrayMax`, `GetData()` nor what the
thread has reserved keeps the invariant, given that the stored values are
still in the heap. -/
theorem Inv.update {α : Type} {D M : Int} {cs : List (Call α)} {S : System α}
    (h : Inv D M cs S) {i : Nat} {t t' : Thread α} (A' : TArray α)
    (hi : S.Threads[i]? = some t)
    (hD : A'.Data = S.Array.Data) (hM : A'.ArrayMax = S.Array.ArrayMax)
    (hN : A'.ArrayNum = S.Array.ArrayNum)
    (hcall : t'.call = t.call) (hold : t'.OldNum = t.OldNum)
    (hres : t'.pc.reserved = t.pc.reserved) (hwf : t'.wellFormed D)
    (hmem : ∀ (j : Nat) (u : Thread α) (v : α), (S.Threads.set i t')[j]? = some u →
      u.stored = some v → A'.Mem (D + u.OldNum) = some v) :
    Inv D M cs { Array := A', Threads := S.Threads.set i t' } := by
  have hheld : t'.held = t.held := by unfold Thread.held; rw [hres, hcall]
  refine ⟨hD.trans h.data, hM.trans h.max, ?_, ?_, ?_, ?_, ?_, ?_, hmem⟩
  · show (S.Threads.set i t').map Thread.call = cs
    rw [map_call_set hi hcall, h.calls]
  · intro j u hu
    rcases getElem?_set_cases hu with ⟨_, rfl⟩ | ⟨_, hu⟩
    · exact hwf
    · exact h.wf j u hu
  · show A'.ArrayNum = ((S.Threads.set i t').map Thread.held).sum
    rw [sum_map_set Thread.held S.Threads i t t' hi, hheld, hN, h.num]
    omega
  · intro j u hu hr
    show 0 ≤ u.OldNum ∧ u.OldNum + u.call.Count ≤ A'.ArrayNum
    rw [hN]
    rcases getElem?_set_cases hu with ⟨_, rfl⟩ | ⟨_, hu⟩
    · rw [hold, hcall]
      exact h.range i t hi (hres ▸ hr)
    · exact h.range j u hu hr
  · intro j k tj tk hjk hj hk hrj hrk
    rcases getElem?_set_cases hj with ⟨hji, hje⟩ | ⟨hji, hj'⟩ <;>
      rcases getElem?_set_cases hk with ⟨hki, hke⟩ | ⟨hki, hk'⟩
    · exact absurd (hji.trans hki.symm) hjk
    · rw [hje, hold, hcall]
      rw [hje, hres] at hrj
      exact h.disj i k t tk (fun e => hki e.symm) hi hk' hrj hrk
    · rw [hke, hold, hcall]
      rw [hke, hres] at hrk
      exact h.disj j i tj t hji hj' hi hrj hrk
    · exact h.disj j k tj tk hjk hj' hk' hrj hrk
  · intro x hx0 hx
    have hx' : x < S.Array.ArrayNum := hN ▸ hx
    obtain ⟨j, u, hu, hr, hlo, hhi⟩ := h.cover x hx0 hx'
    by_cases hji : j = i
    · subst hji
      rw [hi] at hu
      cases hu
      exact ⟨j, t', getElem?_set_self_of_some hi, hres.trans hr, hold ▸ hlo,
        by rw [hold, hcall]; exact hhi⟩
    · exact ⟨j, u, getElem?_set_other hji hu, hr, hlo, hhi⟩

/-- A step that leaves the array alone and changes neither what the thread has
reserved nor what it has stored keeps the invariant. -/
theorem Inv.local_step {α : Type} {D M : Int} {cs : List (Call α)} {S : System α}
    (h : Inv D M cs S) {i : Nat} {t t' : Thread α} (hi : S.Threads[i]? = some t)
    (hcall : t'.call = t.call) (hold : t'.OldNum = t.OldNum)
    (hres : t'.pc.reserved = t.pc.reserved) (hst : t'.stored = t.stored)
    (hwf : t'.wellFormed D) :
    Inv D M cs { Array := S.Array, Threads := S.Threads.set i t' } := by
  refine h.update S.Array hi rfl rfl rfl hcall hold hres hwf ?_
  intro j u v hu hv
  rcases getElem?_set_cases hu with ⟨_, rfl⟩ | ⟨_, hu⟩
  · rw [hold]
    exact h.mem i t v hi (hst ▸ hv)
  · exact h.mem j u v hu hv

theorem Thread.stored_reserved {α : Type} {t : Thread α} {v : α} (h : t.stored = some v) :
    t.pc.reserved = true ∧ t.call.Count = 1 := by
  unfold Thread.stored at h
  split at h
  · rename_i hc hp
    rw [hc, hp]
    exact ⟨rfl, rfl⟩
  · rename_i hc hp
    rw [hc, hp]
    exact ⟨rfl, rfl⟩
  · exact absurd h (by simp)

/-- The placement-new step keeps the invariant. -/
theorem Inv.construct_step {α : Type} {D M : Int} {cs : List (Call α)} {S : System α}
    (h : Inv D M cs S) {i : Nat} {t : Thread α} {Element : Item α}
    (hi : S.Threads[i]? = some t) (hpc : t.pc = Pc.construct)
    (hc : t.call = Call.AddToArrayThreadSafe Element) :
    Inv D M cs { Array := S.Array.construct (S.Array.Data + t.OldNum) Element.value,
                 Threads := S.Threads.set i { t with pc := Pc.checkData } } := by
  have hwf := h.wf i t hi
  refine h.update _ hi rfl rfl rfl rfl rfl (by rw [hpc]; rfl) ?_ ?_
  · unfold Thread.wellFormed at hwf ⊢
    simp only [hc, hpc] at hwf ⊢
    exact hwf
  · intro j u v hu hv
    show (if D + u.OldNum = S.Array.Data + t.OldNum then some Element.value
      else S.Array.Mem (D + u.OldNum)) = some v
    rcases getElem?_set_cases hu with ⟨_, rfl⟩ | ⟨hji, hu⟩
    · rw [h.data, if_pos rfl]
      simp only [Thread.stored, hc] at hv
      exact hv
    · obtain ⟨hur, huc⟩ := Thread.stored_reserved hv
      have htr : t.pc.reserved = true := by rw [hpc]; rfl
      have htc : t.call.Count = 1 := by rw [hc]; rfl
      have hd := h.disj j i u t hji hu hi hur htr
      rw [huc, htc] at hd
      have hne : ¬ (D + u.OldNum = S.Array.Data + t.OldNum) := by
        rw [h.data]; omega
      rw [if_neg hne]
      exact h.mem j u v hu hv

theorem sum_held_bounds {α : Type} :
    ∀ l : List (Thread α), (∀ t ∈ l, 0 ≤ t.call.Count) →
      0 ≤ (l.map Thread.held).sum ∧
        (l.map Thread.held).sum ≤ ((l.map Thread.call).map Call.Count).sum
  | [], _ => by simp
  | t :: l, h => by
    have ih := sum_held_bounds l (fun u hu => h u (List.mem_cons_of_mem _ hu))
    have ht := h t (List.mem_cons_self _ _)
    have h1 : 0 ≤ t.held ∧ t.held ≤ t.call.Count := by
      unfold Thread.held
      split <;> omega
    simp only [List.map_cons, List.sum_cons]
    omega

theorem Inv.count_nonneg {α : Type} {D M : Int} {cs : List (Call α)} {S : System α}
    (h : Inv D M cs S) (hcs : ∀ c ∈ cs, 0 ≤ c.Count) :
    ∀ t ∈ S.Threads, 0 ≤ t.call.Count := by
  intro t ht
  apply hcs
  rw [← h.calls]
  exact List.mem_map_of_mem _ ht

theorem Inv.num_bounds {α : Type} {D M : Int} {cs : List (Call α)} {S : System α}
    (h : Inv D M cs S) (hcs : ∀ c ∈ cs, 0 ≤ c.Count) :
    0 ≤ S.Array.ArrayNum ∧ S.Array.ArrayNum ≤ (cs.map Call.Count).sum := by
  have hb := sum_held_bounds S.Threads (h.count_nonneg hcs)
  rw [h.calls, ← h.num] at hb
  exact hb

/-- The `InterlockedAdd` step keeps the invariant (with the sum not yet wrapped). -/
theorem Inv.reserve_step {α : Type} {D M : Int} {cs : List (Call α)} {S : System α}
    (h : Inv D M cs S) (hcs : ∀ c ∈ cs, 0 ≤ c.Count) {i : Nat} {t : Thread α}
    (hi : S.Threads[i]? = some t) (hpc : t.pc = Pc.interlockedAdd) :
    Inv D M cs
      { Array := { S.Array with ArrayNum := S.Array.ArrayNum + t.call.Count },
        Threads := S.Threads.set i
          { t with OldNum := S.Array.ArrayNum, pc := Pc.checkCapacity } } := by
  have hwf := h.wf i t hi
  have hnum0 := (h.num_bounds hcs).1
  have hcnt : 0 ≤ t.call.Count :=
    h.count_nonneg hcs t (List.mem_iff_getElem?.mpr ⟨i, hi⟩)
  have hnr : t.pc.reserved = false := by rw [hpc]; rfl
  refine ⟨h.data, h.max, ?_, ?_, ?_, ?_, ?_, ?_, ?_⟩
  · have hc : ({ t with OldNum := S.Array.ArrayNum, pc := Pc.checkCapacity } : Thread α).call
        = t.call := rfl
    exact (map_call_set hi hc).trans h.calls
  · intro j u hu
    rcases getElem?_set_cases hu with ⟨_, rfl⟩ | ⟨_, hu⟩
    · unfold Thread.wellFormed at hwf ⊢
      cases hc : t.call <;> simp only [hc, hpc] at hwf ⊢
      exact hwf
    · exact h.wf j u hu
  · show S.Array.ArrayNum + t.call.Count = ((S.Threads.set i _).map Thread.held).sum
    have h1 : t.held = 0 := by unfold Thread.held; rw [hnr]; rfl
    have h2 : ∀ o : Int, ({ t with OldNum := o, pc := Pc.checkCapacity } : Thread α).held
        = t.call.Count := fun _ => rfl
    rw [sum_map_set Thread.held S.Threads i t _ hi, h1, h2, h.num]
    omega
  · intro j u hu hr
    show 0 ≤ u.OldNum ∧ u.OldNum + u.call.Count ≤ S.Array.ArrayNum + t.call.Count
    rcases getElem?_set_cases hu with ⟨_, rfl⟩ | ⟨_, hu⟩
    · exact ⟨hnum0, le_refl _⟩
    · have := h.range j u hu hr
      omega
  · intro j k tj tk hjk hj hk hrj hrk
    rcases getElem?_set_cases hj with ⟨hji, hje⟩ | ⟨hji, hj'⟩ <;>
      rcases getElem?_set_cases hk with ⟨hki, hke⟩ | ⟨hki, hk'⟩
    · exact absurd (hji.trans hki.symm) hjk
    · rw [hje]
      exact Or.inr (h.range k tk hk' hrk).2
    · rw [hke]
      exact Or.inl (h.range j tj hj' hrj).2
    · exact h.disj j k tj tk hjk hj' hk' hrj hrk
  · intro x hx0 hx
    have hx' : x < S.Array.ArrayNum + t.call.Count := hx
    by_cases hlt : x < S.Array.ArrayNum
    · obtain ⟨j, u, hu, hr, hlo, hhi⟩ := h.cover x hx0 hlt
      have hji : j ≠ i := by
        intro e
        subst e
        rw [hi] at hu
        cases hu
        rw [hnr] at hr
        exact absurd hr (by simp)
      exact ⟨j, u, getElem?_set_other hji hu, hr, hlo, hhi⟩
    · exact ⟨i, _, getElem?_set_self_of_some hi, rfl, not_lt.mp hlt, hx'⟩
  · intro j u v hu hv
    rcases getElem?_set_cases hu with ⟨_, rfl⟩ | ⟨_, hu⟩
    · have := (Thread.stored_reserved hv)
      simp only [Thread.stored] at hv
      split at hv <;> simp_all
    · exact h.mem j u v hu hv

theorem Thread.assert_pass {α : Type} (t : Thread α) (enabled : Bool) {cond : Bool}
    (f : Fatal) (next : Pc) (h : cond = true) :
    t.assert enabled cond f next = { t with pc := next } := by
  unfold Thread.assert
  rw [h]
  simp

/-- Every step of every thread keeps the invariant. -/
theorem Inv.step {α : Type} {D M : Int} {cs : List (Call α)} {S : System α}
    (b : Build) (CheckAddress : TArray α → Int → Bool) (hf : Fits CheckAddress M cs)
    (h : Inv D M cs S) (i : Nat) : Inv D M cs (S.step b CheckAddress i) := by
  unfold System.step
  cases hi : S.Threads[i]? with
  | none => exact h
  | some t =>
    have hwf := h.wf i t hi
    have hmemt : t ∈ S.Threads := List.mem_iff_getElem?.mpr ⟨i, hi⟩
    have hcnt : 0 ≤ t.call.Count := h.count_nonneg hf.nonneg t hmemt
    have hcs : t.call ∈ cs := by rw [← h.calls]; exact List.mem_map_of_mem _ hmemt
    have hnb := h.num_bounds hf.nonneg
    have h32 := hf.int32
    have htot := hf.total
    unfold MAX_int32 at h32
    obtain ⟨call, pc, dpa, old⟩ := t
    cases pc with
    | getDataPre =>
      cases call with
      | AddUninitializedThreadsafe Count => exact absurd hwf (by simp [Thread.wellFormed])
      | AddToArrayThreadSafe Element =>
        exact h.local_step hi rfl rfl rfl rfl (by simp [Thread.wellFormed, h.data])
    | checkAddress =>
      cases call with
      | AddUninitializedThreadsafe Count => exact absurd hwf (by simp [Thread.wellFormed])
      | AddToArrayThreadSafe Element =>
        simp only [Thread.step]
        rw [Thread.assert_pass _ _ _ _ (hf.address S.Array Element hcs)]
        exact h.local_step hi rfl rfl rfl rfl hwf
    | checkSlow =>
      simp only [Thread.step]
      rw [Thread.assert_pass _ _ _ _ (decide_eq_true hcnt)]
      refine h.local_step hi rfl rfl rfl ?_ ?_
      · cases call <;> rfl
      · cases call
        · trivial
        · exact hwf
    | interlockedAdd =>
      have hr := h.reserve_step hf.nonneg hi rfl
      have hb2 := hr.num_bounds hf.nonneg
      have hb3 : S.Array.ArrayNum + call.Count ≤ (cs.map Call.Count).sum := hb2.2
      have hw : wrap32 (S.Array.ArrayNum + call.Count) = S.Array.ArrayNum + call.Count :=
        wrap32_of_isInt32 ⟨by have := hnb.1; have : 0 ≤ call.Count := hcnt; omega, by omega⟩
      simp only [Thread.step, TArray.InterlockedAddNum]
      rw [hw]
      exact hr
    | checkCapacity =>
      have hrange := h.range i _ hi rfl
      have h1 : 0 ≤ old := hrange.1
      have h2 : old + call.Count ≤ S.Array.ArrayNum := hrange.2
      have hw : wrap32 (old + call.Count) = old + call.Count :=
        wrap32_of_isInt32 ⟨by have : 0 ≤ call.Count := hcnt; omega, by omega⟩
      have hle : wrap32 (old + call.Count) ≤ S.Array.ArrayMax := by
        rw [hw, h.max]; omega
      simp only [Thread.step]
      rw [Thread.assert_pass _ _ _ _ (decide_eq_true hle)]
      refine h.local_step hi rfl rfl ?_ ?_ ?_
      · cases call <;> rfl
      · cases call <;> rfl
      · cases call
        · trivial
        · exact hwf
    | construct =>
      cases call with
      | AddUninitializedThreadsafe Count => exact absurd hwf (by simp [Thread.wellFormed])
      | AddToArrayThreadSafe Element => exact h.construct_step hi rfl rfl
    | checkData =>
      cases call with
      | AddUninitializedThreadsafe Count => exact absurd hwf (by simp [Thread.wellFormed])
      | AddToArrayThreadSafe Element =>
        have hd : dpa = S.Array.Data := by
          have : dpa = D := hwf
          rw [this, h.data]
        simp only [Thread.step]
        rw [Thread.assert_pass _ _ _ _ (decide_eq_true hd)]
        exact h.local_step hi rfl rfl rfl rfl hwf
    | returned => exact h.local_step hi rfl rfl rfl rfl hwf
    | fatal f => exact absurd hwf (by cases call <;> simp [Thread.wellFormed])

/-- Every schedule keeps the invariant. -/
theorem Inv.run {α : Type} {D M : Int} {cs : List (Call α)}
    (b : Build) (CheckAddress : TArray α → Int → Bool) (hf : Fits CheckAddress M cs)
    (sched : List Nat) :
    ∀ S : System α, Inv D M cs S → Inv D M cs (S.run b CheckAddress sched) := by
  induction sched with
  | nil => exact fun S h => h
  | cons i sched ih => exact fun S h => ih _ (h.step b CheckAddress hf i)

/-- The invariant holds before the first step. -/
theorem Inv.init {α : Type} (A : TArray α) (cs : List (Call α)) (h0 : A.ArrayNum = 0) :
    Inv A.Data A.ArrayMax cs (System.init A cs) := by
  have hget : ∀ (i : Nat) (t : Thread α), (System.init A cs).Threads[i]? = some t →
      ∃ c, t = Thread.start c := by
    intro i t ht
    simp only [System.init, List.getElem?_map] at ht
    cases hc : cs[i]? with
    | none => rw [hc] at ht; exact absurd ht (by simp)
    | some c => rw [hc] at ht; exact ⟨c, (Option.some.inj ht).symm⟩
  have hnr : ∀ c : Call α, (Thread.start c).pc.reserved = false := by
    intro c; cases c <;> rfl
  refine ⟨rfl, rfl, ?_, ?_, ?_, ?_, ?_, ?_, ?_⟩
  · show (cs.map Thread.start).map Thread.call = cs
    rw [List.map_map]
    have hid : (Thread.call ∘ Thread.start : Call α → Call α) = id := rfl
    rw [hid, List.map_id]
  · intro i t ht
    obtain ⟨c, rfl⟩ := hget i t ht
    cases c <;> simp [Thread.start, Thread.wellFormed, Call.entry]
  · show A.ArrayNum = ((cs.map Thread.start).map Thread.held).sum
    rw [h0]
    have : ∀ l : List (Call α), ((l.map Thread.start).map Thread.held).sum = 0 := by
      intro l
      induction l with
      | nil => rfl
      | cons c l ih =>
        simp only [List.map_cons, List.sum_cons, ih]
        simp [Thread.held, hnr]
    exact (this cs).symm
  · intro i t ht hr
    obtain ⟨c, rfl⟩ := hget i t ht
    rw [hnr] at hr
    exact absurd hr (by simp)
  · intro i j ti tj _ hti _ hr _
    obtain ⟨c, rfl⟩ := hget i ti hti
    rw [hnr] at hr
    exact absurd hr (by simp)
  · intro x hx0 hx
    have : x < A.ArrayNum := hx
    omega
  · intro i t v ht hv
    obtain ⟨c, rfl⟩ := hget i t ht
    have := (Thread.stored_reserved hv).1
    rw [hnr] at this
    exact absurd this (by simp)

/-! ### Progress: every call returns after its last line -/

theorem Thread.assert_cases {α : Type} (t : Thread α) (enabled cond : Bool) (f : Fatal)
    (next : Pc) :
    t.assert enabled cond f next = { t with pc := next } ∨
      t.assert enabled cond f next = { t with pc := Pc.fatal f } := by
  unfold Thread.assert
  split
  · exact Or.inr rfl
  · exact Or.inl rfl

/-- A step that does not end in a failed assertion brings the thread one line
closer to its return. -/
theorem Thread.remaining_step {α : Type} (b : Build) (CheckAddress : TArray α → Int → Bool)
    (A : TArray α) (t : Thread α) (h : ∀ f, (t.step b CheckAddress A).2.pc ≠ Pc.fatal f) :
    (t.step b CheckAddress A).2.remaining = t.remaining - 1 := by
  obtain ⟨call, pc, dpa, old⟩ := t
  cases pc <;> cases call <;> simp only [Thread.step] at h ⊢ <;>
    first
    | rfl
    | (rcases Thread.assert_cases _ _ _ _ _ with e | e <;> rw [e] at h ⊢
       · rfl
       · exact absurd rfl (h _))

theorem System.step_other {α : Type} (b : Build) (CheckAddress : TArray α → Int → Bool)
    (S : System α) {i j : Nat} (hne : j ≠ i) :
    (S.step b CheckAddress i).Threads[j]? = S.Threads[j]? := by
  unfold System.step
  cases hi : S.Threads[i]? with
  | none => rfl
  | some t => exact List.getElem?_set_ne (fun e => hne e.symm)

theorem System.step_self {α : Type} (b : Build) (CheckAddress : TArray α → Int → Bool)
    (S : System α) {i : Nat} {t : Thread α} (hi : S.Threads[i]? = some t) :
    (S.step b CheckAddress i).Threads[i]? = some (t.step b CheckAddress S.Array).2 ∧
      (S.step b CheckAddress i).Array = (t.step b CheckAddress S.Array).1 := by
  unfold System.step
  rw [hi]
  exact ⟨getElem?_set_self_of_some hi, rfl⟩

theorem Thread.wellFormed_not_fatal {α : Type} {D : Int} {t : Thread α}
    (h : t.wellFormed D) (f : Fatal) : t.pc ≠ Pc.fatal f := by
  intro e
  unfold Thread.wellFormed at h
  rw [e] at h
  cases hc : t.call <;> rw [hc] at h <;> exact h

/-- Along any schedule, thread `j` has advanced by as many lines as the schedule
names it (until it has returned). -/
theorem Inv.remaining_run {α : Type} {D M : Int} {cs : List (Call α)}
    (b : Build) (CheckAddress : TArray α → Int → Bool) (hf : Fits CheckAddress M cs)
    (sched : List Nat) :
    ∀ S : System α, Inv D M cs S → ∀ (j : Nat) (t : Thread α), S.Threads[j]? = some t →
      ∃ t', (S.run b CheckAddress sched).Threads[j]? = some t' ∧
        t'.remaining = t.remaining - sched.count j := by
  induction sched with
  | nil => exact fun S _ j t ht => ⟨t, ht, by simp⟩
  | cons i sched ih =>
    intro S h j t ht
    have h' := h.step b CheckAddress hf i
    by_cases hji : j = i
    · subst hji
      obtain ⟨hs, _⟩ := System.step_self b CheckAddress S ht
      have hnf := Thread.wellFormed_not_fatal (h'.wf j _ hs)
      have hrem := Thread.remaining_step b CheckAddress S.Array t hnf
      obtain ⟨t', ht', hr⟩ := ih _ h' j _ hs
      refine ⟨t', ht', ?_⟩
      rw [hr, hrem, List.count_cons_self]
      omega
    · have hs : (S.step b CheckAddress i).Threads[j]? = some t := by
        rw [System.step_other b CheckAddress S hji]; exact ht
      obtain ⟨t', ht', hr⟩ := ih _ h' j t hs
      refine ⟨t', ht', ?_⟩
      rw [hr, List.count_cons_of_ne hji]

theorem Thread.returned_of_remaining {α : Type} {D : Int} {t : Thread α}
    (hwf : t.wellFormed D) (h : t.remaining = 0) : t.pc = Pc.returned := by
  obtain ⟨call, pc, dpa, old⟩ := t
  cases pc <;> cases call <;> simp [Thread.remaining, Thread.wellFormed] at h hwf ⊢

theorem Thread.start_remaining {α : Type} (c : Call α) : (Thread.start c).remaining ≤ 7 := by
  cases c <;> simp [Thread.start, Call.entry, Thread.remaining]

/-! ### The returned value is the `ArrayNum` read by the `InterlockedAdd` -/

theorem Thread.settled_step {α : Type} (b : Build) (CheckAddress : TArray α → Int → Bool)
    (A : TArray α) (t : Thread α) (h : t.pc.settled = true) :
    (t.step b CheckAddress A).2.OldNum = t.OldNum ∧
      (t.step b CheckAddress A).2.pc.settled = true := by
  obtain ⟨call, pc, dpa, old⟩ := t
  cases pc <;> cases call <;> simp only [Thread.step] at h ⊢ <;>
    first
    | exact ⟨rfl, rfl⟩
    | exact ⟨trivial, rfl⟩
    | exact absurd h (by decide)
    | (rcases Thread.assert_cases _ _ _ _ _ with e | e <;> rw [e] <;> exact ⟨rfl, rfl⟩)

theorem System.settled_run {α : Type} (b : Build) (CheckAddress : TArray α → Int → Bool)
    (sched : List Nat) :
    ∀ (S : System α) (j : Nat) (t : Thread α), S.Threads[j]? = some t →
      t.pc.settled = true →
      ∃ t', (S.run b CheckAddress sched).Threads[j]? = some t' ∧ t'.OldNum = t.OldNum ∧
        t'.pc.settled = true := by
  induction sched with
  | nil => exact fun S j t ht hs => ⟨t, ht, rfl, hs⟩
  | cons i sched ih =>
    intro S j t ht hs
    by_cases hji : j = i
    · subst hji
      obtain ⟨hself, _⟩ := System.step_self b CheckAddress S ht
      obtain ⟨ho, hs'⟩ := Thread.settled_step b CheckAddress S.Array t hs
      obtain ⟨t', ht', ho', hs''⟩ := ih _ j _ hself hs'
      exact ⟨t', ht', ho'.trans ho, hs''⟩
    · have hother : (S.step b CheckAddress i).Threads[j]? = some t := by
        rw [System.step_other b CheckAddress S hji]; exact ht
      exact ih _ j t hother hs

theorem System.run_append {α : Type} (b : Build) (CheckAddress : TArray α → Int → Bool)
    (S : System α) (pre post : List Nat) :
    S.run b CheckAddress (pre ++ post) = (S.run b CheckAddress pre).run b CheckAddress post := by
  unfold System.run
  rw [List.foldl_append]

/-- Whenever a thread executes its `InterlockedAdd`, its `OldNum` is from then
on the `ArrayNum` of that moment. -/
theorem System.oldNum_is_previous {α : Type} (b : Build)
    (CheckAddress : TArray α → Int → Bool) (S : System α) (pre post : List Nat) (i : Nat)
    (t : Thread α) (ht : (S.run b CheckAddress pre).Threads[i]? = some t)
    (hpc : t.pc = Pc.interlockedAdd) :
    ∃ t', (S.run b CheckAddress (pre ++ i :: post)).Threads[i]? = some t' ∧
      t'.OldNum = (S.run b CheckAddress pre).Array.ArrayNum := by
  rw [System.run_append]
  obtain ⟨hself, _⟩ := System.step_self b CheckAddress _ ht
  have hstep : (t.step b CheckAddress (S.run b CheckAddress pre).Array).2.OldNum =
      (S.run b CheckAddress pre).Array.ArrayNum ∧
      (t.step b CheckAddress (S.run b CheckAddress pre).Array).2.pc.settled = true := by
    obtain ⟨call, pc, dpa, old⟩ := t
    cases hpc
    exact ⟨rfl, rfl⟩
  obtain ⟨t', ht', ho, _⟩ :=
    System.settled_run b CheckAddress post _ i _ hself hstep.2
  exact ⟨t', ht', ho.trans hstep.1⟩

/-! ### The state after every call has returned -/

theorem map_held_of_reserved {α : Type} :
    ∀ l : List (Thread α), (∀ t ∈ l, t.pc.reserved = true) →
      l.map Thread.held = (l.map Thread.call).map Call.Count
  | [], _ => rfl
  | t :: l, h => by
    have ih := map_held_of_reserved l (fun u hu => h u (List.mem_cons_of_mem _ hu))
    have ht : t.held = t.call.Count := by
      unfold Thread.held
      rw [if_pos (h t (List.mem_cons_self _ _))]
    simp only [List.map_cons, ih, ht]

theorem Inv.thread_at {α : Type} {D M : Int} {cs : List (Call α)} {S : System α}
    (h : Inv D M cs S) {i : Nat} {si : Int} {ci : Call α}
    (hs : (S.Threads.map Thread.OldNum)[i]? = some si) (hc : cs[i]? = some ci) :
    ∃ t, S.Threads[i]? = some t ∧ t.OldNum = si ∧ t.call = ci := by
  rw [List.getElem?_map] at hs
  rw [← h.calls, List.getElem?_map] at hc
  cases ht : S.Threads[i]? with
  | none => rw [ht] at hs; exact absurd hs (by simp)
  | some t =>
    rw [ht] at hs hc
    exact ⟨t, rfl, Option.some.inj hs, Option.some.inj hc⟩

theorem Inv.final {α : Type} {A : TArray α} {cs : List (Call α)} {S : System α}
    (h : Inv A.Data A.ArrayMax cs S) (hret : ∀ t ∈ S.Threads, t.pc = Pc.returned) :
    Final A cs S (S.Threads.map Thread.OldNum) := by
  have hres : ∀ t ∈ S.Threads, t.pc.reserved = true := by
    intro t ht; rw [hret t ht]; rfl
  have hat : ∀ (i : Nat) (t : Thread α), S.Threads[i]? = some t → t.pc.reserved = true :=
    fun i t ht => hres t (List.mem_iff_getElem?.mpr ⟨i, ht⟩)
  have hnum : S.Array.ArrayNum = (cs.map Call.Count).sum := by
    rw [h.num, map_held_of_reserved S.Threads hres, h.calls]
  refine ⟨?_, ?_, hnum, h.max, h.data, ?_, ?_, ?_⟩
  · unfold System.results
    rw [List.map_map]
    apply List.map_congr_left
    intro t ht
    simp [Thread.result, hret t ht]
  · rw [List.length_map, ← h.calls, List.length_map]
  · intro i j si sj ci cj hij hsi hsj hci hcj x hx
    obtain ⟨ti, hti, rfl, rfl⟩ := h.thread_at hsi hci
    obtain ⟨tj, htj, rfl, rfl⟩ := h.thread_at hsj hcj
    have hd := h.disj i j ti tj hij hti htj (hat i ti hti) (hat j tj htj)
    unfold InRange at hx
    omega
  · intro x
    constructor
    · rintro ⟨hx0, hx⟩
      obtain ⟨i, t, ht, _, hlo, hhi⟩ := h.cover x hx0 (hnum ▸ hx)
      refine ⟨i, t.OldNum, t.call, ?_, ?_, hlo, hhi⟩
      · rw [List.getElem?_map, ht]; rfl
      · rw [← h.calls, List.getElem?_map, ht]; rfl
    · rintro ⟨i, si, ci, hsi, hci, hlo, hhi⟩
      obtain ⟨t, ht, rfl, rfl⟩ := h.thread_at hsi hci
      have hr := h.range i t ht (hat i t ht)
      rw [hnum] at hr
      constructor <;> omega
  · intro i si Element hsi hci
    obtain ⟨t, ht, rfl, hc⟩ := h.thread_at hsi hci
    apply h.mem i t Element.value ht
    simp [Thread.stored, hc, hret t (List.mem_iff_getElem?.mpr ⟨i, ht⟩)]

/-- Every call returns once the schedule has given it as many steps as it has lines. -/
theorem System.run_complete {α : Type} (b : Build) (CheckAddress : TArray α → Int → Bool)
    (A : TArray α) (cs : List (Call α)) (hf : Fits CheckAddress A.ArrayMax cs)
    (h0 : A.ArrayNum = 0) (sched : List Nat)
    (hfair : ∀ (i : Nat) (c : Call α), cs[i]? = some c →
      (Thread.start c).remaining ≤ sched.count i) :
    ∀ t ∈ ((System.init A cs).run b CheckAddress sched).Threads, t.pc = Pc.returned := by
  have hinit := Inv.init A cs h0
  have hrun := Inv.run b CheckAddress hf sched _ hinit
  intro t ht
  obtain ⟨j, hj⟩ := List.mem_iff_getElem?.mp ht
  have hjlt : j < cs.length := by
    obtain ⟨hl, _⟩ := List.getElem?_eq_some.mp hj
    have := congrArg List.length hrun.calls
    rw [List.length_map] at this
    omega
  have hcj : cs[j]? = some cs[j] := List.getElem?_eq_getElem hjlt
  have hstart : (System.init A cs).Threads[j]? = some (Thread.start cs[j]) := by
    simp only [System.init, List.getElem?_map, hcj]
    rfl
  obtain ⟨t', ht', hr⟩ :=
    Inv.remaining_run b CheckAddress hf sched _ hinit j _ hstart
  rw [hj] at ht'
  cases ht'
  have hfj := hfair j _ hcj
  exact Thread.returned_of_remaining (hrun.wf j t hj) (by omega)

theorem getElem?_map_some {β γ : Type} {f : β → γ} {l : List β} {i : Nat} {y : γ}
    (h : (l.map f)[i]? = some y) : ∃ c, l[i]? = some c ∧ f c = y := by
  rw [List.getElem?_map] at h
  cases hc : l[i]? with
  | none => rw [hc] at h; exact absurd h (by simp)
  | some c => rw [hc] at h; exact ⟨c, rfl, Option.some.inj h⟩

theorem Final.partition {α : Type} {A : TArray α} {cs : List (Call α)} {S : System α}
    {s : List Int} (h : Final A cs S s) : Partition (cs.map Call.Count) s := by
  refine ⟨by rw [h.length, List.length_map], ?_, ?_⟩
  · intro i j si sj Ki Kj hij hsi hsj hKi hKj x
    obtain ⟨ci, hci, rfl⟩ := getElem?_map_some hKi
    obtain ⟨cj, hcj, rfl⟩ := getElem?_map_some hKj
    exact h.disjoint i j si sj ci cj hij hsi hsj hci hcj x
  · intro x
    rw [h.cover x]
    constructor
    · rintro ⟨i, si, ci, hsi, hci, hx⟩
      exact ⟨i, si, ci.Count, hsi, by rw [List.getElem?_map, hci]; rfl, hx⟩
    · rintro ⟨i, si, Ki, hsi, hKi, hx⟩
      obtain ⟨ci, hci, rfl⟩ := getElem?_map_some hKi
      exact ⟨i, si, ci, hsi, hci, hx⟩

theorem sum_of_all_one : ∀ Ks : List Int, (∀ K ∈ Ks, K = 1) → Ks.sum = Ks.length
  | [], _ => rfl
  | K :: Ks, h => by
    have ih := sum_of_all_one Ks (fun K' hK' => h K' (List.mem_cons_of_mem _ hK'))
    have hK := h K (List.mem_cons_self _ _)
    simp only [List.sum_cons, List.length_cons, ih, hK]
    push_cast
    ring

/-- With every count equal to one, the starts are the indices `0, ..., n - 1`
in some order. -/
theorem Partition.perm_range {Ks s : List Int} (h : Partition Ks s)
    (hone : ∀ K ∈ Ks, K = 1) :
    s.Perm ((List.range Ks.length).map Int.ofNat) := by
  obtain ⟨hlen, hdisj, hcover⟩ := h
  have hsum := sum_of_all_one Ks hone
  have hK : ∀ (i : Nat) (Ki : Int), Ks[i]? = some Ki → Ki = 1 :=
    fun i Ki hi => hone Ki (List.mem_iff_getElem?.mpr ⟨i, hi⟩)
  have hnd : s.Nodup := by
    rw [List.nodup_iff_getElem?_ne_getElem?]
    intro i j hij hj he
    have hi : i < s.length := by omega
    have hsi : s[i]? = some s[i] := List.getElem?_eq_getElem hi
    have hsj : s[j]? = some s[i] := by rw [← he]; exact hsi
    have hKi : Ks[i]? = some Ks[i] := List.getElem?_eq_getElem (by omega)
    have hKj : Ks[j]? = some Ks[j] := List.getElem?_eq_getElem (by omega)
    apply hdisj i j s[i] s[i] Ks[i] Ks[j] (by omega) hsi hsj hKi hKj s[i]
    rw [hK i _ hKi, hK j _ hKj]
    unfold InRange
    omega
  have hnd2 : ((List.range Ks.length).map Int.ofNat).Nodup :=
    List.Nodup.map (fun a b hab => Int.ofNat.inj hab) (List.nodup_range _)
  rw [List.perm_ext_iff_of_nodup hnd hnd2]
  intro x
  constructor
  · intro hx
    obtain ⟨i, hi⟩ := List.mem_iff_getElem?.mp hx
    have hil : i < s.length := (List.getElem?_eq_some.mp hi).1
    have hKi : Ks[i]? = some Ks[i] := List.getElem?_eq_getElem (by omega)
    have hin : 0 ≤ x ∧ x < Ks.sum := by
      rw [hcover x]
      refine ⟨i, x, Ks[i], hi, hKi, ?_⟩
      rw [hK i _ hKi]
      unfold InRange
      omega
    rw [List.mem_map]
    refine ⟨x.toNat, List.mem_range.mpr ?_, ?_⟩
    · omega
    · show ((x.toNat : Nat) : Int) = x
      omega
  · intro hx
    rw [List.mem_map] at hx
    obtain ⟨n, hn, rfl⟩ := hx
    have hn' := List.mem_range.mp hn
    have hin : 0 ≤ (Int.ofNat n) ∧ Int.ofNat n < Ks.sum := by
      rw [hsum]
      constructor
      · exact Int.ofNat_nonneg n
      · exact Int.ofNat_lt.mpr hn'
    obtain ⟨i, si, Ki, hsi, hKi, hr⟩ := (hcover _).mp hin
    rw [hK i Ki hKi] at hr
    unfold InRange at hr
    have : si = Int.ofNat n := by omega
    rw [← this]
    exact List.mem_iff_getElem?.mpr ⟨i, hsi⟩

/-! ### Side conditions for the two kinds of run -/

theorem map_count_reserve {α : Type} (Ks : List Int) :
    (Ks.map (Call.AddUninitializedThreadsafe : Int → Call α)).map Call.Count = Ks := by
  rw [List.map_map]
  have hid : (Call.Count ∘ (Call.AddUninitializedThreadsafe : Int → Call α)) = id := rfl
  rw [hid, List.map_id]

theorem fits_reserve {α : Type} (CheckAddress : TArray α → Int → Bool) (M : Int)
    (Ks : List Int) (hK : ∀ K ∈ Ks, 0 ≤ K) (hcap : Ks.sum ≤ M) (h32 : M ≤ MAX_int32) :
    Fits CheckAddress M (Ks.map Call.AddUninitializedThreadsafe) := by
  refine ⟨?_, ?_, h32, ?_⟩
  · intro c hc
    obtain ⟨K, hKm, rfl⟩ := List.mem_map.mp hc
    exact hK K hKm
  · rw [map_count_reserve]; exact hcap
  · intro A Element hc
    obtain ⟨K, _, hKe⟩ := List.mem_map.mp hc
    cases hKe

theorem fair_reserve {α : Type} (Ks : List Int) (sched : List Nat)
    (hfair : ∀ i, i < Ks.length → 3 ≤ sched.count i) :
    ∀ (i : Nat) (c : Call α), (Ks.map Call.AddUninitializedThreadsafe)[i]? = some c →
      (Thread.start c).remaining ≤ sched.count i := by
  intro i c hc
  have hi : i < Ks.length := by
    have := (List.getElem?_eq_some.mp hc).1
    rw [List.length_map] at this
    exact this
  obtain ⟨K, _, rfl⟩ := getElem?_map_some hc
  exact hfair i hi

theorem map_count_append {α : Type} (items : List (Item α)) :
    ∀ K ∈ (items.map Call.AddToArrayThreadSafe).map Call.Count, K = 1 := by
  intro K hK
  rw [List.map_map] at hK
  obtain ⟨e, _, rfl⟩ := List.mem_map.mp hK
  rfl

theorem fits_append {α : Type} (CheckAddress : TArray α → Int → Bool) (M : Int)
    (items : List (Item α)) (hcap : (items.length : Int) ≤ M) (h32 : M ≤ MAX_int32)
    (hchk : ∀ (A : TArray α) (e : Item α), e ∈ items → CheckAddress A e.addr = true) :
    Fits CheckAddress M (items.map Call.AddToArrayThreadSafe) := by
  refine ⟨?_, ?_, h32, ?_⟩
  · intro c hc
    obtain ⟨e, _, rfl⟩ := List.mem_map.mp hc
    show (0 : Int) ≤ 1
    omega
  · rw [sum_of_all_one _ (map_count_append items), List.length_map, List.length_map]
    exact hcap
  · intro A Element hc
    obtain ⟨e, he, hee⟩ := List.mem_map.mp hc
    cases hee
    exact hchk A _ he

theorem fair_append {α : Type} (items : List (Item α)) (sched : List Nat)
    (hfair : ∀ i, i < items.length → 7 ≤ sched.count i) :
    ∀ (i : Nat) (c : Call α), (items.map Call.AddToArrayThreadSafe)[i]? = some c →
      (Thread.start c).remaining ≤ sched.count i := by
  intro i c hc
  have hi : i < items.length := by
    have := (List.getElem?_eq_some.mp hc).1
    rw [List.length_map] at this
    exact this
  obtain ⟨e, _, rfl⟩ := getElem?_map_some hc
  exact hfair i hi

/-- After a run of appends in which every call has returned, the slots
`0, ..., N - 1` hold the appended values, up to order. -/
theorem Final.stored_perm {α : Type} {A : TArray α} {items : List (Item α)} {S : System α}
    {s : List Int} (h : Final A (items.map Call.AddToArrayThreadSafe) S s) :
    ((List.range items.length).map fun j : Nat => S.Array.Mem (A.Data + j)).Perm
      (items.map fun e => some e.value) := by
  have hperm := h.partition.perm_range (map_count_append items)
  rw [List.length_map, List.length_map] at hperm
  have h1 := List.Perm.map (fun x : Int => S.Array.Mem (A.Data + x)) hperm
  rw [List.map_map] at h1
  have h2 : s.map (fun x : Int => S.Array.Mem (A.Data + x)) =
      items.map fun e => some e.value := by
    apply List.ext_getElem?
    intro i
    rw [List.getElem?_map, List.getElem?_map]
    have hlen : s.length = items.length := by rw [h.length, List.length_map]
    by_cases hi : i < items.length
    · have hsi : s[i]? = some s[i] := List.getElem?_eq_getElem (by omega)
      have hei : items[i]? = some items[i] := List.getElem?_eq_getElem hi
      have hci : (items.map Call.AddToArrayThreadSafe)[i]? =
          some (Call.AddToArrayThreadSafe items[i]) := by
        rw [List.getElem?_map, hei]; rfl
      rw [hsi, hei]
      show some (S.Array.Mem (A.Data + s[i])) = some (some items[i].value)
      rw [h.mem i s[i] items[i] hsi hci]
    · rw [List.getElem?_eq_none (by omega), List.getElem?_eq_none (by omega)]
      rfl
  rw [h2] at h1
  exact h1.symm

/-! ### One call alone: the interleaved execution agrees with the function -/

theorem solo_reserve {α : Type} (b : Build) (CheckAddress : TArray α → Int → Bool)
    (A : TArray α) (Count : Int) :
    ((System.init A [Call.AddUninitializedThreadsafe Count]).run b CheckAddress
        [0, 0, 0]).Array = (AddUninitializedThreadsafe b Count A).state ∧
    ((System.init A [Call.AddUninitializedThreadsafe Count]).run b CheckAddress
        [0, 0, 0]).results = [(AddUninitializedThreadsafe b Count A).value] := by
  rw [AddUninitializedThreadsafe_eq]
  obtain ⟨c, slow⟩ := b
  by_cases h1 : Count < 0 <;>
    by_cases h2 : A.ArrayMax < wrap32 (A.ArrayNum + Count) <;>
    cases c <;> cases slow <;>
    simp [System.init, System.run, System.step, Thread.start, Call.entry, Thread.step,
      Thread.assert, Call.Count, TArray.InterlockedAddNum, System.results, Thread.result,
      Outcome.state, Outcome.value, h1, h2, not_lt.mp, not_le.mpr]

theorem solo_append {α : Type} (b : Build) (CheckAddress : TArray α → Int → Bool)
    (A : TArray α) (Element : Item α) :
    ((System.init A [Call.AddToArrayThreadSafe Element]).run b CheckAddress
        [0, 0, 0, 0, 0, 0, 0]).Array = (AddToArrayThreadSafe b CheckAddress Element A).state ∧
    ((System.init A [Call.AddToArrayThreadSafe Element]).run b CheckAddress
        [0, 0, 0, 0, 0, 0, 0]).results = [(AddThreadsafe b CheckAddress Element A).value] := by
  rw [AddToArrayThreadSafe_eq, AddThreadsafe_eq]
  obtain ⟨c, slow⟩ := b
  by_cases h0 : CheckAddress A Element.addr = true <;>
    by_cases h2 : A.ArrayMax < wrap32 (A.ArrayNum + 1) <;>
    cases c <;> cases slow <;>
    simp [System.init, System.run, System.step, Thread.start, Call.entry, Thread.step,
      Thread.assert, Call.Count, TArray.InterlockedAddNum, System.results, Thread.result,
      Outcome.state, Outcome.value, Outcome.bind, TArray.construct, h0, h2, not_lt.mp,
      not_le.mpr]

/-! ## Claims about the array -/

/-- C1. Reservations `AddUninitializedThreadsafe(K_1)`, ..., `(K_n)` with every
`K_i >= 0` on an array with `ArrayNum = 0` and `ArrayMax >= K_1 + ... + K_n`,
interleaved by any schedule: no assertion fires; the `OldNum` a call returns is
the `ArrayNum` of the moment of its `InterlockedAdd`; once every call has had its
three steps all have returned, and the ranges `[s_i, s_i + K_i)` of the
returned values are pairwise disjoint and cover exactly `[0, K_1 + ... + K_n)`.
For `N` single appends into capacity at least `N` (with `CheckAddress`
accepting the elements) no assertion fires and the returned indices are
`0, ..., N - 1` in some order. -/
theorem reservations_disjoint_and_dense {α : Type} (b : Build)
    (CheckAddress : TArray α → Int → Bool) (A : TArray α) (Ks : List Int)
    (hK : ∀ K ∈ Ks, 0 ≤ K) (h0 : A.ArrayNum = 0) (hcap : Ks.sum ≤ A.ArrayMax)
    (h32 : A.ArrayMax ≤ MAX_int32) (sched : List Nat) :
    (∀ t ∈ ((System.init A (Ks.map Call.AddUninitializedThreadsafe)).run b CheckAddress
        sched).Threads, ∀ f, t.pc ≠ Pc.fatal f) ∧
    (∀ (pre post : List Nat) (i : Nat) (t : Thread α), sched = pre ++ i :: post →
      ((System.init A (Ks.map Call.AddUninitializedThreadsafe)).run b CheckAddress
        pre).Threads[i]? = some t →
      t.pc = Pc.interlockedAdd →
      ∃ t', ((System.init A (Ks.map Call.AddUninitializedThreadsafe)).run b CheckAddress
          sched).Threads[i]? = some t' ∧
        ∀ r, t'.result = some r →
          r = ((System.init A (Ks.map Call.AddUninitializedThreadsafe)).run b CheckAddress
            pre).Array.ArrayNum) ∧
    ((∀ i, i < Ks.length → 3 ≤ sched.count i) →
      ∃ s : List Int,
        ((System.init A (Ks.map Call.AddUninitializedThreadsafe)).run b CheckAddress
          sched).results = s.map some ∧
        Partition Ks s) ∧
    (∀ items : List (Item α), (items.length : Int) ≤ A.ArrayMax →
      (∀ (A' : TArray α) (e : Item α), e ∈ items → CheckAddress A' e.addr = true) →
      (∀ i, i < items.length → 7 ≤ sched.count i) →
      (∀ t ∈ ((System.init A (items.map Call.AddToArrayThreadSafe)).run b CheckAddress
          sched).Threads, ∀ f, t.pc ≠ Pc.fatal f) ∧
      ∃ s : List Int,
        ((System.init A (items.map Call.AddToArrayThreadSafe)).run b CheckAddress
          sched).results = s.map some ∧
        s.Perm ((List.range items.length).map Int.ofNat)) := by
  have hf := fits_reserve CheckAddress A.ArrayMax Ks hK hcap h32
  have hinit := Inv.init A (Ks.map (Call.AddUninitializedThreadsafe : Int → Call α)) h0
  have hrun := Inv.run b CheckAddress hf sched _ hinit
  refine ⟨?_, ?_, ?_, ?_⟩
  · intro t ht f
    obtain ⟨j, hj⟩ := List.mem_iff_getElem?.mp ht
    exact Thread.wellFormed_not_fatal (hrun.wf j t hj) f
  · intro pre post i t hs ht hpc
    subst hs
    obtain ⟨t', ht', ho⟩ :=
      System.oldNum_is_previous b CheckAddress _ pre post i t ht hpc
    refine ⟨t', ht', ?_⟩
    intro r hr
    unfold Thread.result at hr
    split at hr
    · rw [← ho]; exact (Option.some.inj hr).symm
    · exact absurd hr (by simp)
  · intro hfair
    have hret := System.run_complete b CheckAddress A _ hf h0 sched
      (fair_reserve Ks sched hfair)
    have hfin := hrun.final hret
    refine ⟨_, hfin.results, ?_⟩
    have hp := hfin.partition
    rw [map_count_reserve] at hp
    exact hp
  · intro items hcapN hchk hfair
    have hf' := fits_append CheckAddress A.ArrayMax items hcapN h32 hchk
    have hinit' := Inv.init A (items.map Call.AddToArrayThreadSafe) h0
    have hrun' := Inv.run b CheckAddress hf' sched _ hinit'
    have hret := System.run_complete b CheckAddress A _ hf' h0 sched
      (fair_append items sched hfair)
    have hfin := hrun'.final hret
    refine ⟨?_, _, hfin.results, ?_⟩
    · intro t ht f
      obtain ⟨j, hj⟩ := List.mem_iff_getElem?.mp ht
      exact Thread.wellFormed_not_fatal (hrun'.wf j t hj) f
    · have hp := hfin.partition.perm_range (map_count_append items)
      rw [List.length_map, List.length_map] at hp
      exact hp

/-- C2. Appends of the values `items` through `AddToArrayThreadSafe` on an array
with `ArrayNum = 0` and `ArrayMax >= N`, the steps of the calls interleaved by
any schedule (with `CheckAddress` accepting the elements): once every call has
had its seven steps all have returned; and whenever all have returned,
`ArrayNum = N`, the slot at the index a call was assigned holds the value that
call appended, and the slots `0, ..., N - 1` hold the appended values up to order. -/
theorem appended_values_are_stored {α : Type} (b : Build)
    (CheckAddress : TArray α → Int → Bool) (A : TArray α) (items : List (Item α))
    (h0 : A.ArrayNum = 0) (hcap : (items.length : Int) ≤ A.ArrayMax)
    (h32 : A.ArrayMax ≤ MAX_int32)
    (hchk : ∀ (A' : TArray α) (e : Item α), e ∈ items → CheckAddress A' e.addr = true)
    (sched : List Nat) :
    ((∀ i, i < items.length → 7 ≤ sched.count i) →
      ∀ t ∈ ((System.init A (items.map Call.AddToArrayThreadSafe)).run b CheckAddress
        sched).Threads, t.pc = Pc.returned) ∧
    ((∀ t ∈ ((System.init A (items.map Call.AddToArrayThreadSafe)).run b CheckAddress
        sched).Threads, t.pc = Pc.returned) →
      ((System.init A (items.map Call.AddToArrayThreadSafe)).run b CheckAddress
        sched).Array.ArrayNum = items.length ∧
      (∃ s : List Int,
        ((System.init A (items.map Call.AddToArrayThreadSafe)).run b CheckAddress
          sched).results = s.map some ∧
        s.length = items.length ∧
        ∀ (i : Nat) (si : Int) (e : Item α), s[i]? = some si → items[i]? = some e →
          ((System.init A (items.map Call.AddToArrayThreadSafe)).run b CheckAddress
            sched).Array.Mem (A.Data + si) = some e.value) ∧
      ((List.range items.length).map fun j : Nat =>
        ((System.init A (items.map Call.AddToArrayThreadSafe)).run b CheckAddress
          sched).Array.Mem (A.Data + j)).Perm (items.map fun e => some e.value)) := by
  have hf := fits_append CheckAddress A.ArrayMax items hcap h32 hchk
  have hinit := Inv.init A (items.map Call.AddToArrayThreadSafe) h0
  have hrun := Inv.run b CheckAddress hf sched _ hinit
  refine ⟨?_, ?_⟩
  · intro hfair
    exact System.run_complete b CheckAddress A _ hf h0 sched (fair_append items sched hfair)
  · intro hret
    have hfin := hrun.final hret
    refine ⟨?_, ⟨_, hfin.results, ?_, ?_⟩, hfin.stored_perm⟩
    · rw [hfin.num, sum_of_all_one _ (map_count_append items), List.length_map,
        List.length_map]
    · rw [hfin.length, List.length_map]
    · intro i si e hsi hei
      apply hfin.mem i si e hsi
      rw [List.getElem?_map, hei]
      rfl

/-- C1, at an instance: two reservations of sizes 2 and 1 on an array of capacity 3. -/
theorem reservations_disjoint_and_dense_witness :
    ∃ s : List Int,
      ((System.init (⟨0, 0, 3, fun _ => none⟩ : TArray Nat)
          ([2, 1].map Call.AddUninitializedThreadsafe)).run ⟨true, true⟩ (fun _ _ => true)
          [0, 1, 1, 0, 0, 1]).results = s.map some ∧
      Partition [2, 1] s :=
  (reservations_disjoint_and_dense ⟨true, true⟩ (fun _ _ => true)
    (⟨0, 0, 3, fun _ => none⟩ : TArray Nat) [2, 1] (by decide) rfl (by decide) (by decide)
    [0, 1, 1, 0, 0, 1]).2.2.1 (by decide)

/-- C2, at an instance: three appends into an array of capacity 3, interleaved. -/
theorem appended_values_are_stored_witness :
    ((List.range 3).map fun j : Nat =>
      ((System.init (⟨100, 0, 3, fun _ => none⟩ : TArray Nat)
          ([⟨7, 0⟩, ⟨8, 1⟩, ⟨9, 2⟩].map Call.AddToArrayThreadSafe)).run ⟨true, true⟩
          (fun _ _ => true)
          [0, 1, 1, 0, 0, 1, 1, 2, 2, 2, 2, 2, 2, 0, 0, 0, 0, 1, 1, 1, 1, 2]).Array.Mem
        (100 + j)).Perm
      (([⟨7, 0⟩, ⟨8, 1⟩, ⟨9, 2⟩] : List (Item Nat)).map fun e => some e.value) :=
  ((appended_values_are_stored ⟨true, true⟩ (fun _ _ => true)
    (⟨100, 0, 3, fun _ => none⟩ : TArray Nat) [⟨7, 0⟩, ⟨8, 1⟩, ⟨9, 2⟩] rfl (by decide)
    (by decide) (fun _ _ _ => rfl)
    [0, 1, 1, 0, 0, 1, 1, 2, 2, 2, 2, 2, 2, 0, 0, 0, 0, 1, 1, 1, 1, 2]).2
    ((appended_values_are_stored ⟨true, true⟩ (fun _ _ => true)
      (⟨100, 0, 3, fun _ => none⟩ : TArray Nat) [⟨7, 0⟩, ⟨8, 1⟩, ⟨9, 2⟩] rfl (by decide)
      (by decide) (fun _ _ _ => rfl)
      [0, 1, 1, 0, 0, 1, 1, 2, 2, 2, 2, 2, 2, 0, 0, 0, 0, 1, 1, 1, 1, 2]).1 (by decide))).2.2

/-- C3, at the failing inputs. In a checked build, on an array with
`ArrayNum = ArrayMax = 1` the reservation `AddUninitializedThreadsafe(2147483647)`
exceeds the capacity, yet `OldNum + Count` wraps to `-2147483648`, the check
passes and the call returns 1 with `ArrayNum = -2147483648`; and on an array
with `ArrayNum = ArrayMax = 2147483647` the next single append passes the check
and constructs its element at `GetData() + 2147483647`, one past the storage. -/
theorem capacity_check_wraps_around {α : Type} (D : Int) (Mem : Int → Option α) (v : α)
    (p : Int) :
    AddUninitializedThreadsafe ⟨true, true⟩ 2147483647 ⟨D, 1, 1, Mem⟩ =
      Outcome.ret 1 ⟨D, -2147483648, 1, Mem⟩ ∧
    AddThreadsafe ⟨true, true⟩ (fun _ _ => true) ⟨v, p⟩ ⟨D, 2147483647, 2147483647, Mem⟩ =
      Outcome.ret 2147483647
        ⟨D, -2147483648, 2147483647,
          fun q => if q = D + 2147483647 then some v else Mem q⟩ := by
  constructor
  · rw [AddUninitializedThreadsafe_eq]
    simp [wrap32]
  · rw [AddThreadsafe_eq]
    simp [wrap32]

/-- C4, as stated, fails in a build without `check`: on an array with
`ArrayNum = ArrayMax = 0` the call `AddUninitializedThreadsafe(1)` returns
without an assertion and leaves `ArrayNum = 1 > ArrayMax`. -/
theorem invariant_broken_without_check :
    (0 ≤ (0 : Int) ∧ (0 : Int) ≤ 0) ∧ (0 : Int) ≤ 1 ∧
    (AddUninitializedThreadsafe ⟨false, false⟩ 1
      (⟨0, 0, 0, fun _ => none⟩ : TArray Nat)).failure = none ∧
    (AddUninitializedThreadsafe ⟨false, false⟩ 1
      (⟨0, 0, 0, fun _ => none⟩ : TArray Nat)).value = some 0 ∧
    ¬ ((AddUninitializedThreadsafe ⟨false, false⟩ 1
        (⟨0, 0, 0, fun _ => none⟩ : TArray Nat)).state.ArrayNum ≤
      (AddUninitializedThreadsafe ⟨false, false⟩ 1
        (⟨0, 0, 0, fun _ => none⟩ : TArray Nat)).state.ArrayMax) := by
  rw [AddUninitializedThreadsafe_eq]
  simp [wrap32, Outcome.failure, Outcome.value, Outcome.state]

/-- C4, amended. In a checked build, for every array state with
`0 <= ArrayNum` (in particular when `0 <= ArrayNum <= ArrayMax`) and every
`Count >= 0` with `ArrayNum + Count` within `int32`, a call `AddUninitializedThreadsafe(Count)` that returns leaves
`ArrayNum` equal to the old value plus `Count` (so not smaller), at most
`ArrayMax`, and `ArrayMax` unchanged; the same holds for `AddThreadsafe` with
`Count = 1`. -/
theorem invariant_kept_in_checked_build {α : Type} (b : Build) (hb : b.DO_CHECK = true)
    (A : TArray α) (Count : Int) (h0 : 0 ≤ A.ArrayNum)
    (hC : 0 ≤ Count) (hov : A.ArrayNum + Count ≤ MAX_int32) :
    (∀ (r : Int) (A' : TArray α), AddUninitializedThreadsafe b Count A = Outcome.ret r A' →
      A'.ArrayNum = A.ArrayNum + Count ∧ A.ArrayNum ≤ A'.ArrayNum ∧ 0 ≤ A'.ArrayNum ∧
        A'.ArrayNum ≤ A'.ArrayMax ∧ A'.ArrayMax = A.ArrayMax) ∧
    (Count = 1 → ∀ (CheckAddress : TArray α → Int → Bool) (Item : Item α) (r : Int)
      (A' : TArray α), AddThreadsafe b CheckAddress Item A = Outcome.ret r A' →
      A'.ArrayNum = A.ArrayNum + 1 ∧ A.ArrayNum ≤ A'.ArrayNum ∧ 0 ≤ A'.ArrayNum ∧
        A'.ArrayNum ≤ A'.ArrayMax ∧ A'.ArrayMax = A.ArrayMax) := by
  have hw : wrap32 (A.ArrayNum + Count) = A.ArrayNum + Count :=
    wrap32_of_isInt32 ⟨by omega, by unfold MAX_int32 at hov; omega⟩
  constructor
  · intro r A' h
    rw [AddUninitializedThreadsafe_eq] at h
    split at h
    · cases h
    · split at h
      · cases h
      · rename_i hcap
        cases h
        have hle : ¬ (A.ArrayMax < wrap32 (A.ArrayNum + Count)) := fun hlt => hcap ⟨hb, hlt⟩
        rw [hw] at hle
        dsimp only
        rw [hw]
        omega
  · intro hone CheckAddress Item r A' h
    subst hone
    rw [AddThreadsafe_eq] at h
    split at h
    · cases h
    · split at h
      · cases h
      · split at h
        · cases h
        · rename_i hcap
          cases h
          have hle : ¬ (A.ArrayMax < wrap32 (A.ArrayNum + 1)) := fun hlt => hcap ⟨hb, hlt⟩
          rw [hw] at hle
          dsimp only
          rw [hw]
          omega

/-- C4 amended, at an instance: a checked reservation of 2 slots on an array
holding 1 of 3. -/
theorem invariant_kept_in_checked_build_witness :
    AddUninitializedThreadsafe ⟨true, true⟩ 2 (⟨0, 1, 3, fun _ => none⟩ : TArray Nat) =
        Outcome.ret 1 ⟨0, 3, 3, fun _ => none⟩ ∧
      (3 : Int) = 1 + 2 ∧ (1 : Int) ≤ 3 ∧ (0 : Int) ≤ 3 ∧ (3 : Int) ≤ 3 ∧ (3 : Int) = 3 :=
  ⟨by rw [AddUninitializedThreadsafe_eq]; simp [wrap32],
    (invariant_kept_in_checked_build ⟨true, true⟩ rfl
      (⟨0, 1, 3, fun _ => none⟩ : TArray Nat) 2 (by decide) (by decide)
      (by decide)).1 1 ⟨0, 3, 3, fun _ => none⟩
      (by rw [AddUninitializedThreadsafe_eq]; simp [wrap32])⟩

/-- C5. A single-element append that succeeds returns the previous `ArrayNum` as
its index, constructs the value in the slot at that index, and leaves every
other address of the heap, `ArrayMax` and `GetData()` as they were;
`AddToArrayThreadSafe` then succeeds with the same array state, and on no input
does its post-check `DataPreAdd == DataBeforeAdd` fail. -/
theorem append_writes_one_slot {α : Type} (b : Build)
    (CheckAddress : TArray α → Int → Bool) (Element : Item α) (A : TArray α) :
    (AddToArrayThreadSafe b CheckAddress Element A).failure ≠ some Fatal.Reallocated ∧
    ∀ (Index : Int) (A' : TArray α),
      AddThreadsafe b CheckAddress Element A = Outcome.ret Index A' →
      Index = A.ArrayNum ∧
      A'.Mem (A.Data + Index) = some Element.value ∧
      (∀ p, p ≠ A.Data + Index → A'.Mem p = A.Mem p) ∧
      A'.ArrayMax = A.ArrayMax ∧ A'.Data = A.Data ∧
      AddToArrayThreadSafe b CheckAddress Element A = Outcome.ret () A' := by
  constructor
  · rw [AddToArrayThreadSafe_eq, AddThreadsafe_eq]
    split
    · simp [Outcome.bind, Outcome.failure]
    · split
      · simp [Outcome.bind, Outcome.failure]
      · split <;> simp [Outcome.bind, Outcome.failure]
  · intro Index A' h
    have h2 := AddToArrayThreadSafe_eq b CheckAddress Element A
    rw [h] at h2
    rw [AddThreadsafe_eq] at h
    split at h
    · cases h
    · split at h
      · cases h
      · split at h
        · cases h
        · cases h
          refine ⟨rfl, by simp, ?_, rfl, rfl, h2⟩
          intro p hp
          simp [hp]

/-- C5, at an instance: appending 7 to an array holding 1 of 3. -/
theorem append_writes_one_slot_witness :
    (1 : Int) = 1 ∧
      (fun q : Int => if q = 10 + 1 then some 7 else none) (10 + 1) = some 7 ∧
      (∀ p : Int, p ≠ 10 + 1 →
        (fun q : Int => if q = 10 + 1 then some 7 else none) p = none) ∧
      (3 : Int) = 3 ∧ (10 : Int) = 10 ∧
      AddToArrayThreadSafe ⟨true, true⟩ (fun _ _ => true) ⟨7, 0⟩
          (⟨10, 1, 3, fun _ => none⟩ : TArray Nat) =
        Outcome.ret () ⟨10, 2, 3, fun q => if q = 10 + 1 then some 7 else none⟩ :=
  (append_writes_one_slot ⟨true, true⟩ (fun _ _ => true) ⟨7, 0⟩
    (⟨10, 1, 3, fun _ => none⟩ : TArray Nat)).2 1
    ⟨10, 2, 3, fun q => if q = 10 + 1 then some 7 else none⟩
    (by rw [AddThreadsafe_eq]; simp [wrap32])

/-! ### Invariant of the checked guard -/

theorem total_set (f : Frame → Int) (Stacks : List (List Frame)) (i : Nat)
    (st st' : List Frame) (h : Stacks[i]? = some st) :
    total f (Stacks.set i st') = total f Stacks - (st.map f).sum + (st'.map f).sum :=
  sum_map_set (fun x : List Frame => (x.map f).sum) Stacks i st st' h

theorem writeCtor_ret {b : Build} (hb : b.DO_CHECK = true) {S S' : FEnabledConcurrentCheck}
    (h : FEnabledConcurrentCheck.FScopedConcurrentWriteCheck.ctor b S = Outcome.ret () S') :
    S'.ConcurrentReaders = S.ConcurrentReaders ∧
      S'.ConcurrentWriters = wrap32 (S.ConcurrentWriters + 1) ∧ S'.ConcurrentWriters = 1 := by
  unfold FEnabledConcurrentCheck.FScopedConcurrentWriteCheck.ctor check InterlockedIncrement at h
  rw [hb] at h
  by_cases hc : wrap32 (S.ConcurrentWriters + 1) = 1
  · simp [hc] at h
    subst h
    exact ⟨rfl, hc.symm, rfl⟩
  · simp [hc] at h

theorem writeDtor_ret {b : Build} (hb : b.DO_CHECK = true) {S S' : FEnabledConcurrentCheck}
    (h : FEnabledConcurrentCheck.FScopedConcurrentWriteCheck.dtor b S = Outcome.ret () S') :
    S'.ConcurrentReaders = S.ConcurrentReaders ∧
      S'.ConcurrentWriters = wrap32 (S.ConcurrentWriters - 1) ∧ S'.ConcurrentWriters = 0 := by
  unfold FEnabledConcurrentCheck.FScopedConcurrentWriteCheck.dtor check InterlockedDecrement at h
  rw [hb] at h
  by_cases hc : wrap32 (S.ConcurrentWriters - 1) = 0
  · simp [hc] at h
    subst h
    exact ⟨rfl, hc.symm, rfl⟩
  · simp [hc] at h

theorem readCtor_ret {b : Build} (hb : b.DO_CHECK = true) {S S' : FEnabledConcurrentCheck}
    (h : FEnabledConcurrentCheck.FScopedConcurrentReadCheck.ctor b S = Outcome.ret () S') :
    S'.ConcurrentWriters = S.ConcurrentWriters ∧
      S'.ConcurrentReaders = wrap32 (S.ConcurrentReaders + 1) ∧ S'.ConcurrentReaders = 1 := by
  unfold FEnabledConcurrentCheck.FScopedConcurrentReadCheck.ctor check InterlockedIncrement at h
  rw [hb] at h
  by_cases hc : wrap32 (S.ConcurrentReaders + 1) = 1
  · simp [hc] at h
    subst h
    exact ⟨rfl, hc.symm, rfl⟩
  · simp [hc] at h

theorem readDtor_ret {b : Build} (hb : b.DO_CHECK = true) {S S' : FEnabledConcurrentCheck}
    (h : FEnabledConcurrentCheck.FScopedConcurrentReadCheck.dtor b S = Outcome.ret () S') :
    S'.ConcurrentWriters = S.ConcurrentWriters ∧
      S'.ConcurrentReaders = wrap32 (S.ConcurrentReaders - 1) ∧ S'.ConcurrentReaders = 0 := by
  unfold FEnabledConcurrentCheck.FScopedConcurrentReadCheck.dtor check InterlockedDecrement at h
  rw [hb] at h
  by_cases hc : wrap32 (S.ConcurrentReaders - 1) = 0
  · simp [hc] at h
    subst h
    exact ⟨rfl, hc.symm, rfl⟩
  · simp [hc] at h

theorem holds_nonneg (fr : Frame) :
    0 ≤ fr.holdsReader ∧ fr.holdsReader ≤ 1 ∧ 0 ≤ fr.holdsWriter ∧ fr.holdsWriter ≤ 1 := by
  obtain ⟨a, pc⟩ := fr
  cases a <;> cases pc <;> simp [Frame.holdsReader, Frame.holdsWriter]

theorem holdsReader_le_holdsWriter {fr : Frame} (h : fr.ok) :
    fr.holdsReader ≤ fr.holdsWriter := by
  obtain ⟨a, pc⟩ := fr
  cases a <;> cases pc <;> simp [Frame.holdsReader, Frame.holdsWriter]

theorem stack_sum_bounds : ∀ st : List Frame, (∀ fr ∈ st, Frame.ok fr) →
    0 ≤ (st.map Frame.holdsReader).sum ∧
      (st.map Frame.holdsReader).sum ≤ (st.map Frame.holdsWriter).sum
  | [], _ => by simp
  | fr :: st, h => by
    have ih := stack_sum_bounds st (fun x hx => h x (List.mem_cons_of_mem _ hx))
    have h1 := holds_nonneg fr
    have h2 := holdsReader_le_holdsWriter (h fr (List.mem_cons_self _ _))
    simp only [List.map_cons, List.sum_cons]
    omega

theorem total_bounds : ∀ Stacks : List (List Frame),
    (∀ st ∈ Stacks, ∀ fr ∈ st, Frame.ok fr) →
    0 ≤ total Frame.holdsReader Stacks ∧
      total Frame.holdsReader Stacks ≤ total Frame.holdsWriter Stacks
  | [], _ => by simp [total]
  | st :: Stacks, h => by
    have ih := total_bounds Stacks (fun x hx => h x (List.mem_cons_of_mem _ hx))
    have h1 := stack_sum_bounds st (h st (List.mem_cons_self _ _))
    unfold total at ih ⊢
    simp only [List.map_cons, List.sum_cons]
    omega

/-- In every state satisfying the invariant the counters are those of `Idle`,
`WriterHeld` or `ReaderAndWriterHeld`. -/
theorem GuardInv.states {G : GuardSystem} (h : GuardInv G) :
    G.State = { ConcurrentReaders := 0, ConcurrentWriters := 0 } ∨
    G.State = { ConcurrentReaders := 0, ConcurrentWriters := 1 } ∨
    G.State = { ConcurrentReaders := 1, ConcurrentWriters := 1 } := by
  have hb := total_bounds G.Stacks h.ok
  rw [← h.readers, ← h.writers] at hb
  have h1 := h.one
  obtain ⟨⟨R, W⟩, o, sts⟩ := G
  simp only at hb h1
  have hR : R = 0 ∨ R = 1 := by omega
  have hW : W = 0 ∨ W = 1 := by omega
  rcases hR with rfl | rfl <;> rcases hW with rfl | rfl
  · exact Or.inl rfl
  · exact Or.inr (Or.inl rfl)
  · omega
  · exact Or.inr (Or.inr rfl)

/-- Replacing the stack of one thread keeps the invariant when the counters
change by what the new stack holds more or less than the old one. -/
theorem GuardInv.set_stack {G : GuardSystem} (h : GuardInv G) {i : Nat} {st : List Frame}
    (hi : G.Stacks[i]? = some st) (st' : List Frame) (State : FEnabledConcurrentCheck)
    (Owner : Option (Nat × Nat)) (hok : ∀ fr ∈ st', Frame.ok fr)
    (hw : State.ConcurrentWriters = G.State.ConcurrentWriters
      - (st.map Frame.holdsWriter).sum + (st'.map Frame.holdsWriter).sum)
    (hr : State.ConcurrentReaders = G.State.ConcurrentReaders
      - (st.map Frame.holdsReader).sum + (st'.map Frame.holdsReader).sum)
    (hone : State.ConcurrentWriters ≤ 1) :
    GuardInv { State := State, Owner := Owner, Stacks := G.Stacks.set i st' } := by
  refine ⟨?_, ?_, ?_, hone⟩
  · intro x hx
    rcases List.mem_or_eq_of_mem_set hx with hx | rfl
    · exact h.ok x hx
    · exact hok
  · show State.ConcurrentWriters = total Frame.holdsWriter (G.Stacks.set i st')
    rw [total_set _ _ _ _ _ hi, hw, h.writers]
  · show State.ConcurrentReaders = total Frame.holdsReader (G.Stacks.set i st')
    rw [total_set _ _ _ _ _ hi, hr, h.readers]

theorem advance_ok {fr : Frame} {rest : List Frame} (hfr : fr.ok)
    (hrest : ∀ x ∈ rest, Frame.ok x) : ∀ x ∈ fr.advance rest, Frame.ok x := by
  obtain ⟨a, pc⟩ := fr
  intro x hx
  cases a <;> cases pc <;> simp [Frame.advance, Access.next] at hx <;>
    first
    | exact hrest x hx
    | (rcases hx with rfl | hx
       · simp [Frame.ok]
       · exact hrest x hx)

/-- What the innermost access holds before and after its line, for both tokens. -/
theorem advance_sums (fr : Frame) (rest : List Frame) (hfr : fr.ok) :
    ((fr.advance rest).map Frame.holdsWriter).sum - ((fr :: rest).map Frame.holdsWriter).sum =
      (match fr.pc with
        | GuardPc.writeCtor => 1
        | GuardPc.writeDtor => -1
        | _ => 0) ∧
    ((fr.advance rest).map Frame.holdsReader).sum - ((fr :: rest).map Frame.holdsReader).sum =
      (match fr.pc with
        | GuardPc.readCtor => 1
        | GuardPc.readDtor => -1
        | _ => 0) := by
  obtain ⟨a, pc⟩ := fr
  cases a <;> cases pc <;>
    first
    | (exfalso; simp [Frame.ok] at hfr; done)
    | simp [Frame.advance, Access.next, Frame.holdsWriter, Frame.holdsReader]

theorem GuardInv.push {G : GuardSystem} (h : GuardInv G) {i : Nat} {st : List Frame}
    (hi : G.Stacks[i]? = some st) (a : Access) :
    GuardInv { G with Stacks := G.Stacks.set i ({ access := a, pc := a.entry } :: st) } := by
  have hst : st ∈ G.Stacks := List.mem_iff_getElem?.mpr ⟨i, hi⟩
  refine h.set_stack hi _ G.State G.Owner ?_ ?_ ?_ h.one
  · intro x hx
    rcases List.mem_cons.mp hx with rfl | hx
    · cases a <;> simp [Frame.ok, Access.entry]
    · exact h.ok st hst x hx
  · cases a <;> simp [Frame.holdsWriter, Access.entry]
  · cases a <;> simp [Frame.holdsReader, Access.entry]

/-- A line that leaves the counters alone keeps the invariant. -/
theorem GuardInv.plain_line {G : GuardSystem} (h : GuardInv G) {i : Nat} {fr : Frame}
    {rest : List Frame} (hi : G.Stacks[i]? = some (fr :: rest)) (Owner : Option (Nat × Nat))
    (hpc : fr.pc = GuardPc.lock ∨ fr.pc = GuardPc.body ∨ fr.pc = GuardPc.unlock) :
    GuardInv { State := G.State, Owner := Owner,
               Stacks := G.Stacks.set i (fr.advance rest) } := by
  have hst : (fr :: rest) ∈ G.Stacks := List.mem_iff_getElem?.mpr ⟨i, hi⟩
  have hok := h.ok _ hst
  have hfr : fr.ok := hok fr (List.mem_cons_self _ _)
  have hrest : ∀ x ∈ rest, Frame.ok x := fun x hx => hok x (List.mem_cons_of_mem _ hx)
  obtain ⟨hw, hr⟩ := advance_sums fr rest hfr
  refine h.set_stack hi _ G.State Owner (advance_ok hfr hrest) ?_ ?_ h.one
  · rcases hpc with e | e | e <;> rw [e] at hw <;> simp only at hw <;> omega
  · rcases hpc with e | e | e <;> rw [e] at hr <;> simp only at hr <;> omega

/-- A scope constructor or destructor that does not fail keeps the invariant. -/
theorem GuardInv.scope_line {b : Build} (hb : b.DO_CHECK = true) {G G' : GuardSystem}
    (h : GuardInv G) {i : Nat} {fr : Frame} {rest : List Frame}
    (hi : G.Stacks[i]? = some (fr :: rest))
    (hs : (match fr.pc with
      | GuardPc.writeCtor =>
        G.scope i fr rest (FEnabledConcurrentCheck.FScopedConcurrentWriteCheck.ctor b)
      | GuardPc.readCtor =>
        G.scope i fr rest (FEnabledConcurrentCheck.FScopedConcurrentReadCheck.ctor b)
      | GuardPc.readDtor =>
        G.scope i fr rest (FEnabledConcurrentCheck.FScopedConcurrentReadCheck.dtor b)
      | _ =>
        G.scope i fr rest (FEnabledConcurrentCheck.FScopedConcurrentWriteCheck.dtor b)) =
      Outcome.ret () G')
    (hpc : fr.pc = GuardPc.writeCtor ∨ fr.pc = GuardPc.readCtor ∨ fr.pc = GuardPc.readDtor ∨
      fr.pc = GuardPc.writeDtor) :
    GuardInv G' := by
  have hst : (fr :: rest) ∈ G.Stacks := List.mem_iff_getElem?.mpr ⟨i, hi⟩
  have hok := h.ok _ hst
  have hfr : fr.ok := hok fr (List.mem_cons_self _ _)
  have hrest : ∀ x ∈ rest, Frame.ok x := fun x hx => hok x (List.mem_cons_of_mem _ hx)
  obtain ⟨hw, hr⟩ := advance_sums fr rest hfr
  have hstates := h.states
  have hbound := total_bounds G.Stacks h.ok
  rw [← h.readers, ← h.writers] at hbound
  have hone := h.one
  rcases hpc with e | e | e | e <;> rw [e] at hw hr hs <;> simp only at hw hr hs <;>
    unfold GuardSystem.scope at hs
  · cases hop : FEnabledConcurrentCheck.FScopedConcurrentWriteCheck.ctor b G.State with
    | fatal f S' => rw [hop] at hs; cases hs
    | ret u S' =>
      rw [hop] at hs
      cases hs
      obtain ⟨h1, h2, h3⟩ := writeCtor_ret hb hop
      have hwr : wrap32 (G.State.ConcurrentWriters + 1) = G.State.ConcurrentWriters + 1 :=
        wrap32_of_isInt32 ⟨by omega, by omega⟩
      refine h.set_stack hi _ S' G.Owner (advance_ok hfr hrest) ?_ ?_ (by omega)
      · rw [h2, hwr]; omega
      · rw [h1]; omega
  · cases hop : FEnabledConcurrentCheck.FScopedConcurrentReadCheck.ctor b G.State with
    | fatal f S' => rw [hop] at hs; cases hs
    | ret u S' =>
      rw [hop] at hs
      cases hs
      obtain ⟨h1, h2, h3⟩ := readCtor_ret hb hop
      have hwr : wrap32 (G.State.ConcurrentReaders + 1) = G.State.ConcurrentReaders + 1 :=
        wrap32_of_isInt32 ⟨by omega, by omega⟩
      refine h.set_stack hi _ S' G.Owner (advance_ok hfr hrest) ?_ ?_ (by omega)
      · rw [h1]; omega
      · rw [h2, hwr]; omega
  · cases hop : FEnabledConcurrentCheck.FScopedConcurrentReadCheck.dtor b G.State with
    | fatal f S' => rw [hop] at hs; cases hs
    | ret u S' =>
      rw [hop] at hs
      cases hs
      obtain ⟨h1, h2, h3⟩ := readDtor_ret hb hop
      have hwr : wrap32 (G.State.ConcurrentReaders - 1) = G.State.ConcurrentReaders - 1 :=
        wrap32_of_isInt32 ⟨by omega, by omega⟩
      refine h.set_stack hi _ S' G.Owner (advance_ok hfr hrest) ?_ ?_ (by omega)
      · rw [h1]; omega
      · rw [h2, hwr]; omega
  · cases hop : FEnabledConcurrentCheck.FScopedConcurrentWriteCheck.dtor b G.State with
    | fatal f S' => rw [hop] at hs; cases hs
    | ret u S' =>
      rw [hop] at hs
      cases hs
      obtain ⟨h1, h2, h3⟩ := writeDtor_ret hb hop
      have hwr : wrap32 (G.State.ConcurrentWriters - 1) = G.State.ConcurrentWriters - 1 :=
        wrap32_of_isInt32 ⟨by omega, by omega⟩
      refine h.set_stack hi _ S' G.Owner (advance_ok hfr hrest) ?_ ?_ (by omega)
      · rw [h2, hwr]; omega
      · rw [h1]; omega

/-- Every move that does not fail an assertion keeps the invariant. -/
theorem GuardInv.after_move {b : Build} (hb : b.DO_CHECK = true) {G G' : GuardSystem}
    (h : GuardInv G) (i : Nat) (m : Move) (hs : G.step b i m = Outcome.ret () G') :
    GuardInv G' := by
  unfold GuardSystem.step at hs
  cases hi : G.Stacks[i]? with
  | none =>
    rw [hi] at hs
    cases hs
    exact h
  | some st =>
    rw [hi] at hs
    cases st with
    | nil =>
      cases m with
      | call a =>
        cases hs
        exact h.push hi a
      | step =>
        cases hs
        exact h
    | cons fr rest =>
      cases m with
      | call a =>
        simp only at hs
        split at hs
        · cases hs
          exact h.push hi a
        · cases hs
          exact h
      | step =>
        simp only at hs
        cases hpc : fr.pc with
        | lock =>
          rw [hpc] at hs
          simp only at hs
          split at hs
          · cases hs
            exact h.plain_line hi _ (Or.inl hpc)
          · split at hs
            · cases hs
              exact h.plain_line hi _ (Or.inl hpc)
            · cases hs
              exact h
        | body =>
          rw [hpc] at hs
          cases hs
          exact h.plain_line hi _ (Or.inr (Or.inl hpc))
        | unlock =>
          rw [hpc] at hs
          cases hs
          exact h.plain_line hi _ (Or.inr (Or.inr hpc))
        | writeCtor =>
          refine GuardInv.scope_line hb h hi ?_ (Or.inl hpc)
          rw [hpc] at hs ⊢
          exact hs
        | readCtor =>
          refine GuardInv.scope_line hb h hi ?_ (Or.inr (Or.inl hpc))
          rw [hpc] at hs ⊢
          exact hs
        | readDtor =>
          refine GuardInv.scope_line hb h hi ?_ (Or.inr (Or.inr (Or.inl hpc)))
          rw [hpc] at hs ⊢
          exact hs
        | writeDtor =>
          refine GuardInv.scope_line hb h hi ?_ (Or.inr (Or.inr (Or.inr hpc)))
          rw [hpc] at hs ⊢
          exact hs

theorem GuardInv.at_start (n : Nat) : GuardInv (GuardSystem.init n) := by
  have hsum : ∀ (f : Frame → Int) (k : Nat), total f (List.replicate k []) = 0 := by
    intro f k
    induction k with
    | zero => rfl
    | succ k ih =>
      unfold total at ih ⊢
      simp only [List.replicate_succ, List.map_cons, List.sum_cons, ih]
      rfl
  refine ⟨?_, ?_, ?_, ?_⟩
  · intro st hst fr hfr
    have := List.eq_of_mem_replicate hst
    subst this
    exact absurd hfr (List.not_mem_nil _)
  · exact (hsum _ n).symm
  · exact (hsum _ n).symm
  · show (0 : Int) ≤ 1
    omega

/-- Every run that does not fail an assertion keeps the invariant. -/
theorem GuardInv.along_run {b : Build} (hb : b.DO_CHECK = true) (moves : List (Nat × Move)) :
    ∀ G G' : GuardSystem, GuardInv G → GuardSystem.run b G moves = Outcome.ret () G' →
      GuardInv G' := by
  induction moves with
  | nil =>
    intro G G' h hr
    cases hr
    exact h
  | cons im moves ih =>
    intro G G' h hr
    obtain ⟨i, m⟩ := im
    unfold GuardSystem.run at hr
    cases hstep : G.step b i m with
    | fatal f G1 => rw [hstep] at hr; cases hr
    | ret u G1 =>
      rw [hstep] at hr
      exact ih G1 G' (h.after_move hb i m hstep) hr

theorem stack_sum_ge_of_mem {fr : Frame} : ∀ st : List Frame, fr ∈ st →
    fr.holdsWriter ≤ (st.map Frame.holdsWriter).sum
  | [], h => absurd h (List.not_mem_nil _)
  | x :: st, h => by
    have hx := holds_nonneg x
    simp only [List.map_cons, List.sum_cons]
    rcases List.mem_cons.mp h with rfl | h
    · have : 0 ≤ (st.map Frame.holdsWriter).sum := by
        clear h
        induction st with
        | nil => simp
        | cons y st ih =>
          have hy := holds_nonneg y
          simp only [List.map_cons, List.sum_cons]
          omega
      omega
    · have := stack_sum_ge_of_mem st h
      omega

theorem total_ge_of_mem {fr : Frame} {st : List Frame} (hfr : fr ∈ st) :
    ∀ Stacks : List (List Frame), st ∈ Stacks → fr.holdsWriter ≤ total Frame.holdsWriter Stacks
  | [], h => absurd h (List.not_mem_nil _)
  | x :: Stacks, h => by
    have hnn : ∀ l : List (List Frame), 0 ≤ total Frame.holdsWriter l := by
      intro l
      induction l with
      | nil => simp [total]
      | cons y l ih =>
        have hy : 0 ≤ (y.map Frame.holdsWriter).sum := by
          induction y with
          | nil => simp
          | cons z y ihy =>
            have hz := holds_nonneg z
            simp only [List.map_cons, List.sum_cons]
            omega
        unfold total at ih ⊢
        simp only [List.map_cons, List.sum_cons]
        omega
    have hx : 0 ≤ (x.map Frame.holdsWriter).sum := by
      have := hnn [x]
      simpa [total] using this
    have hrest := hnn Stacks
    unfold total at hrest ⊢
    simp only [List.map_cons, List.sum_cons]
    rcases List.mem_cons.mp h with rfl | h
    · have := stack_sum_ge_of_mem st hfr
      omega
    · have := total_ge_of_mem hfr Stacks h
      unfold total at this
      omega

/-- While some access holds the writer token, the counter of writers is 1. -/
theorem GuardInv.writers_of_held {G : GuardSystem} (h : GuardInv G) {st : List Frame}
    {fr : Frame} (hst : st ∈ G.Stacks) (hfr : fr ∈ st) (hh : fr.holdsWriter = 1) :
    G.State.ConcurrentWriters = 1 := by
  have h1 := total_ge_of_mem hfr G.Stacks hst
  rw [← h.writers, hh] at h1
  have h2 := h.one
  omega

/-- With the counter of writers at 1, the constructor of the writer scope of a
checked build fails its assertion. -/
theorem writeCtor_fatal {b : Build} (hb : b.DO_CHECK = true) (S : FEnabledConcurrentCheck)
    (hW : S.ConcurrentWriters = 1) :
    FEnabledConcurrentCheck.FScopedConcurrentWriteCheck.ctor b S =
      Outcome.fatal Fatal.WritersNotOne { S with ConcurrentWriters := 2 } := by
  unfold FEnabledConcurrentCheck.FScopedConcurrentWriteCheck.ctor check InterlockedIncrement
  rw [hb, hW]
  rfl

/-- While some access holds the writer token, the writer-scope constructor of
any access fails `check(Writers == 1)`; the stacks stay as they are, so the
closure of that access is not entered. -/
theorem GuardInv.acquire_fatal {b : Build} (hb : b.DO_CHECK = true) {G : GuardSystem}
    (h : GuardInv G) {st : List Frame} {fr : Frame} (hst : st ∈ G.Stacks) (hfr : fr ∈ st)
    (hh : fr.holdsWriter = 1) {j : Nat} {a : Access} {rest : List Frame}
    (hj : G.Stacks[j]? = some ({ access := a, pc := GuardPc.writeCtor } :: rest)) :
    G.step b j Move.step =
      Outcome.fatal Fatal.WritersNotOne
        { G with State := { G.State with ConcurrentWriters := 2 } } := by
  have hW := h.writers_of_held hst hfr hh
  unfold GuardSystem.step
  rw [hj]
  simp only [GuardSystem.scope]
  rw [writeCtor_fatal hb G.State hW]

/-! ### Invariant of the checked guard at the finer grain -/

theorem fineTotal_set (f : FineFrame → Int) (Stacks : List (List FineFrame)) (i : Nat)
    (st st' : List FineFrame) (h : Stacks[i]? = some st) :
    fineTotal f (Stacks.set i st') = fineTotal f Stacks - (st.map f).sum + (st'.map f).sum :=
  sum_map_set (fun x : List FineFrame => (x.map f).sum) Stacks i st st' h

theorem fineTotal_le {f g : FineFrame → Int} :
    ∀ Stacks : List (List FineFrame), (∀ st ∈ Stacks, ∀ fr ∈ st, f fr ≤ g fr) →
      fineTotal f Stacks ≤ fineTotal g Stacks
  | [], _ => by simp [fineTotal]
  | st :: Stacks, h => by
    have ih := fineTotal_le Stacks (fun x hx => h x (List.mem_cons_of_mem _ hx))
    have h1 : (st.map f).sum ≤ (st.map g).sum :=
      List.sum_le_sum (fun fr hfr => h st (List.mem_cons_self _ _) fr hfr)
    unfold fineTotal at ih ⊢
    simp only [List.map_cons, List.sum_cons]
    omega

theorem fineTotal_add (f g : FineFrame → Int) :
    ∀ Stacks : List (List FineFrame),
      fineTotal (fun fr => f fr + g fr) Stacks = fineTotal f Stacks + fineTotal g Stacks
  | [] => by simp [fineTotal]
  | st :: Stacks => by
    have ih := fineTotal_add f g Stacks
    unfold fineTotal at ih ⊢
    simp only [List.map_cons, List.sum_cons, ih, List.sum_map_add]
    omega

theorem fineTotal_zero : ∀ Stacks : List (List FineFrame),
    fineTotal (fun _ => 0) Stacks = 0
  | [] => by simp [fineTotal]
  | st :: Stacks => by
    have ih := fineTotal_zero Stacks
    unfold fineTotal at ih ⊢
    simp only [List.map_cons, List.sum_cons, ih]
    simp

theorem FineFrame.bounds (fr : FineFrame) :
    0 ≤ fr.holdsWriter ∧ 0 ≤ fr.passingWriter ∧ 0 ≤ fr.countsReader ∧
      fr.holdsWriter + fr.passingWriter ≤ fr.countsWriter ∧
      fr.countsWriter ≤ fr.holdsWriter + 1 := by
  obtain ⟨a, pc, pend⟩ := fr
  cases a <;> cases pc <;> cases pend <;>
    simp [FineFrame.holdsWriter, FineFrame.passingWriter, FineFrame.countsReader,
      FineFrame.countsWriter] <;>
    split <;> omega

theorem FineFrame.reader_le_writer {fr : FineFrame} (h : fr.ok) :
    fr.countsReader ≤ fr.holdsWriter := by
  obtain ⟨a, pc, pend⟩ := fr
  obtain ⟨h1, h2⟩ := h
  cases a <;> cases pc <;> cases pend <;>
    simp [FineFrame.holdsWriter, FineFrame.countsReader] at h1 h2 ⊢

theorem FineFrame.at_body {fr : FineFrame} (h : fr.pc = GuardPc.body) :
    fr.countsWriter = fr.holdsWriter := by
  obtain ⟨a, pc, pend⟩ := fr
  cases h
  cases pend <;> rfl

/-- In one stack at most the innermost access has incremented the counter of
writers without holding the token. -/
theorem stack_counts_le (st : List FineFrame) (htail : ∀ fr ∈ st.tail, fr.pc = GuardPc.body) :
    (st.map FineFrame.countsWriter).sum ≤ (st.map FineFrame.holdsWriter).sum + 1 := by
  cases st with
  | nil => simp
  | cons fr rest =>
    have h1 := fr.bounds
    have h2 : (rest.map FineFrame.countsWriter).sum = (rest.map FineFrame.holdsWriter).sum := by
      congr 1
      apply List.map_congr_left
      intro x hx
      exact FineFrame.at_body (htail x hx)
    simp only [List.map_cons, List.sum_cons, h2]
    omega

theorem total_counts_le : ∀ Stacks : List (List FineFrame),
    (∀ st ∈ Stacks, ∀ fr ∈ st.tail, fr.pc = GuardPc.body) →
    fineTotal FineFrame.countsWriter Stacks ≤
      fineTotal FineFrame.holdsWriter Stacks + Stacks.length
  | [], _ => by simp [fineTotal]
  | st :: Stacks, h => by
    have ih := total_counts_le Stacks (fun x hx => h x (List.mem_cons_of_mem _ hx))
    have h1 := stack_counts_le st (h st (List.mem_cons_self _ _))
    unfold fineTotal at ih ⊢
    simp only [List.map_cons, List.sum_cons, List.length_cons]
    push_cast
    omega

/-- Consequences of the invariant for the counters. -/
theorem FineInv.counters {n : Nat} {G : FineSystem} (h : FineInv n G) :
    0 ≤ fineTotal FineFrame.holdsWriter G.Stacks ∧
    0 ≤ fineTotal FineFrame.passingWriter G.Stacks ∧
    0 ≤ G.State.ConcurrentReaders ∧
    G.State.ConcurrentReaders ≤ fineTotal FineFrame.holdsWriter G.Stacks ∧
    fineTotal FineFrame.holdsWriter G.Stacks + fineTotal FineFrame.passingWriter G.Stacks ≤
      G.State.ConcurrentWriters ∧
    G.State.ConcurrentWriters ≤ fineTotal FineFrame.holdsWriter G.Stacks + n := by
  have z := fineTotal_zero G.Stacks
  have a1 := fineTotal_le (f := fun _ => 0) (g := FineFrame.holdsWriter) G.Stacks
    (fun st _ fr _ => fr.bounds.1)
  have a2 := fineTotal_le (f := fun _ => 0) (g := FineFrame.passingWriter) G.Stacks
    (fun st _ fr _ => fr.bounds.2.1)
  have a3 := fineTotal_le (f := fun _ => 0) (g := FineFrame.countsReader) G.Stacks
    (fun st _ fr _ => fr.bounds.2.2.1)
  have a4 := fineTotal_le (f := FineFrame.countsReader) (g := FineFrame.holdsWriter) G.Stacks
    (fun st hst fr hfr => FineFrame.reader_le_writer (h.ok st hst fr hfr))
  have a5 := fineTotal_le (f := fun fr => fr.holdsWriter + fr.passingWriter)
    (g := FineFrame.countsWriter) G.Stacks (fun st _ fr _ => fr.bounds.2.2.2.1)
  rw [fineTotal_add] at a5
  have a6 := total_counts_le G.Stacks h.tails
  rw [h.len] at a6
  rw [h.readers, h.writers]
  omega

/-- Replacing the stack of one thread keeps the invariant when the counters
change by what the new stack counts more or less than the old one. -/
theorem FineInv.fine_set_stack {n : Nat} {G : FineSystem} (h : FineInv n G) {i : Nat}
    {st : List FineFrame} (hi : G.Stacks[i]? = some st) (st' : List FineFrame)
    (State : FEnabledConcurrentCheck) (Owner : Option (Nat × Nat))
    (hok : ∀ fr ∈ st', FineFrame.ok fr) (htl : ∀ fr ∈ st'.tail, fr.pc = GuardPc.body)
    (hw : State.ConcurrentWriters = G.State.ConcurrentWriters
      - (st.map FineFrame.countsWriter).sum + (st'.map FineFrame.countsWriter).sum)
    (hr : State.ConcurrentReaders = G.State.ConcurrentReaders
      - (st.map FineFrame.countsReader).sum + (st'.map FineFrame.countsReader).sum)
    (hone : fineTotal FineFrame.holdsWriter G.Stacks + fineTotal FineFrame.passingWriter G.Stacks
      - ((st.map FineFrame.holdsWriter).sum + (st.map FineFrame.passingWriter).sum)
      + ((st'.map FineFrame.holdsWriter).sum + (st'.map FineFrame.passingWriter).sum) ≤ 1) :
    FineInv n { State := State, Owner := Owner, Stacks := G.Stacks.set i st' } := by
  refine ⟨?_, ?_, ?_, ?_, ?_, ?_⟩
  · show (G.Stacks.set i st').length = n
    rw [List.length_set, h.len]
  · intro x hx
    rcases List.mem_or_eq_of_mem_set hx with hx | rfl
    · exact h.ok x hx
    · exact hok
  · intro x hx
    rcases List.mem_or_eq_of_mem_set hx with hx | rfl
    · exact h.tails x hx
    · exact htl
  · show State.ConcurrentWriters = fineTotal FineFrame.countsWriter (G.Stacks.set i st')
    rw [fineTotal_set _ _ _ _ _ hi, hw, h.writers]
  · show State.ConcurrentReaders = fineTotal FineFrame.countsReader (G.Stacks.set i st')
    rw [fineTotal_set _ _ _ _ _ hi, hr, h.readers]
  · show fineTotal FineFrame.holdsWriter (G.Stacks.set i st') +
      fineTotal FineFrame.passingWriter (G.Stacks.set i st') ≤ 1
    rw [fineTotal_set _ _ _ _ _ hi, fineTotal_set _ _ _ _ _ hi]
    omega

/-- Starting an access keeps the invariant. -/
theorem FineInv.fine_push {n : Nat} {G : FineSystem} (h : FineInv n G) {i : Nat}
    {st : List FineFrame} (hi : G.Stacks[i]? = some st)
    (hbody : ∀ fr ∈ st, fr.pc = GuardPc.body) (a : Access) :
    FineInv n
      { G with Stacks := G.Stacks.set i ({ access := a, pc := a.entry, pending := none } :: st) } := by
  have hst : st ∈ G.Stacks := List.mem_iff_getElem?.mpr ⟨i, hi⟩
  have hone := h.one
  refine h.fine_set_stack hi _ G.State G.Owner ?_ hbody ?_ ?_ ?_
  · intro x hx
    rcases List.mem_cons.mp hx with rfl | hx
    · cases a <;> simp [FineFrame.ok, Access.entry]
    · exact h.ok st hst x hx
  · cases a <;> simp [FineFrame.countsWriter, Access.entry]
  · cases a <;> simp [FineFrame.countsReader, Access.entry]
  · cases a <;> simp [FineFrame.holdsWriter, FineFrame.passingWriter, Access.entry] <;> omega

set_option linter.unusedTactic false in
set_option linter.unreachableTactic false in
set_option linter.unnecessarySeqFocus false in
/-- Every move at the finer grain that does not fail an assertion keeps the
invariant, for fewer than `2^31 - 2` threads. -/
theorem FineInv.after_fine_move {b : Build} (hb : b.DO_CHECK = true) {n : Nat}
    (hn : (n : Int) + 2 ≤ MAX_int32) {G G' : FineSystem} (h : FineInv n G) (i : Nat)
    (m : Move) (hs : G.step b i m = Outcome.ret () G') : FineInv n G' := by
  have hc := h.counters
  have hone := h.one
  unfold MAX_int32 at hn
  unfold FineSystem.step at hs
  cases hi : G.Stacks[i]? with
  | none =>
    rw [hi] at hs
    cases hs
    exact h
  | some st =>
    rw [hi] at hs
    have hst : st ∈ G.Stacks := List.mem_iff_getElem?.mpr ⟨i, hi⟩
    cases st with
    | nil =>
      cases m with
      | call a =>
        cases hs
        exact h.fine_push hi (fun fr hfr => absurd hfr (List.not_mem_nil _)) a
      | step =>
        cases hs
        exact h
    | cons fr rest =>
      have hokfr : fr.ok := h.ok _ hst fr (List.mem_cons_self _ _)
      have hokrest : ∀ x ∈ rest, FineFrame.ok x :=
        fun x hx => h.ok _ hst x (List.mem_cons_of_mem _ hx)
      have htl : ∀ x ∈ rest, x.pc = GuardPc.body := h.tails _ hst
      have htl' : ∀ x ∈ rest.tail, x.pc = GuardPc.body :=
        fun x hx => htl x (List.mem_of_mem_tail hx)
      cases m with
      | call a =>
        simp only at hs
        split at hs
        · rename_i hbody
          cases hs
          refine h.fine_push hi ?_ a
          intro x hx
          rcases List.mem_cons.mp hx with rfl | hx
          · exact hbody
          · exact htl x hx
        · cases hs
          exact h
      | step =>
        simp only at hs
        obtain ⟨a, pc, pend⟩ := fr
        obtain ⟨hok1, hok2⟩ := hokfr
        simp only at hok1 hok2
        cases pc with
        | lock =>
          have hp : pend = none := hok2 (Or.inl rfl)
          subst hp
          have key : ∀ Owner : Option (Nat × Nat), FineInv n
              ⟨G.State, Owner, G.Stacks.set i
                (FineFrame.advance ⟨a, GuardPc.lock, none⟩ rest)⟩ := by
            intro Owner
            cases a
            · exact absurd (hok1 rfl) (by simp)
            all_goals
              refine h.fine_set_stack hi _ G.State Owner ?_ htl ?_ ?_ ?_
              · intro x hx
                rcases List.mem_cons.mp hx with rfl | hx
                · simp [FineFrame.ok]
                · exact hokrest x hx
              · simp [FineFrame.advance, Access.next, FineFrame.countsWriter]
              · simp [FineFrame.advance, Access.next, FineFrame.countsReader]
              · simp [FineFrame.advance, Access.next, FineFrame.holdsWriter,
                  FineFrame.passingWriter]
                omega
          simp only at hs
          split at hs
          · cases hs
            exact key _
          · split at hs
            · cases hs
              exact key _
            · cases hs
              exact h
        | body =>
          have hp : pend = none := hok2 (Or.inr (Or.inl rfl))
          subst hp
          cases hs
          cases a <;>
          · refine h.fine_set_stack hi _ G.State G.Owner ?_ htl ?_ ?_ ?_
            · intro x hx
              rcases List.mem_cons.mp hx with rfl | hx
              · simp [FineFrame.ok]
              · exact hokrest x hx
            · simp [FineFrame.advance, Access.next, FineFrame.countsWriter]
            · simp [FineFrame.advance, Access.next, FineFrame.countsReader]
            · simp [FineFrame.advance, Access.next, FineFrame.holdsWriter,
                FineFrame.passingWriter]
              omega
        | unlock =>
          have hp : pend = none := hok2 (Or.inr (Or.inr rfl))
          subst hp
          cases hs
          cases a
          · exact absurd (hok1 rfl) (by simp)
          all_goals
            refine h.fine_set_stack hi _ G.State _ hokrest htl' ?_ ?_ ?_
            · simp [FineFrame.advance, Access.next, FineFrame.countsWriter]
            · simp [FineFrame.advance, Access.next, FineFrame.countsReader]
            · simp [FineFrame.advance, Access.next, FineFrame.holdsWriter,
                FineFrame.passingWriter]
              omega
        | writeCtor =>
          simp only at hs
          have hwrap : InterlockedIncrement G.State.ConcurrentWriters = G.State.ConcurrentWriters + 1 :=
            wrap32_of_isInt32 ⟨by omega, by omega⟩
          cases pend with
          | none =>
            simp only at hs
            cases hs
            cases a <;>
              first
              | (exfalso; have hbad := hok1 rfl; simp at hbad; done)
              | (refine h.fine_set_stack hi _ _ G.Owner ?_ htl ?_ ?_ ?_
                 · intro x hx
                   rcases List.mem_cons.mp hx with rfl | hx
                   · simp [FineFrame.ok]
                   · exact hokrest x hx
                 · simp [GuardPc.update, FineFrame.countsWriter, hwrap] <;> omega
                 · simp [GuardPc.update, FineFrame.countsReader, hwrap] <;> omega
                 · simp only [List.map_cons, List.sum_cons, FineFrame.holdsWriter,
                     FineFrame.passingWriter, GuardPc.update, hwrap]
                   first
                   | omega
                   | (split <;> omega))
          | some v =>
            simp only [GuardPc.check, check, hb] at hs
            by_cases hv : v = 1
            · subst hv
              simp only [decide_True, Bool.not_true, Bool.and_false, Bool.false_eq_true,
                if_false] at hs
              cases hs
              cases a <;>
                first
                | (exfalso; have hbad := hok1 rfl; simp at hbad; done)
                | (refine h.fine_set_stack hi _ G.State G.Owner ?_ ?_ ?_ ?_ ?_
                   · intro x hx
                     simp only [FineFrame.advance, Access.next] at hx
                     first
                     | exact hokrest x hx
                     | (rcases List.mem_cons.mp hx with rfl | hx
                        · simp [FineFrame.ok]
                        · exact hokrest x hx)
                   · simp only [FineFrame.advance, Access.next]
                     first
                     | exact htl
                     | exact htl'
                   · simp [FineFrame.advance, Access.next, FineFrame.countsWriter]
                   · simp [FineFrame.advance, Access.next, FineFrame.countsReader]
                   · simp [FineFrame.advance, Access.next, FineFrame.holdsWriter,
                       FineFrame.passingWriter]
                     omega)
            · simp [hv] at hs
        | readCtor =>
          simp only at hs
          have hwrap : InterlockedIncrement G.State.ConcurrentReaders = G.State.ConcurrentReaders + 1 :=
            wrap32_of_isInt32 ⟨by omega, by omega⟩
          cases pend with
          | none =>
            simp only at hs
            cases hs
            cases a <;>
              first
              | (exfalso; have hbad := hok1 rfl; simp at hbad; done)
              | (refine h.fine_set_stack hi _ _ G.Owner ?_ htl ?_ ?_ ?_
                 · intro x hx
                   rcases List.mem_cons.mp hx with rfl | hx
                   · simp [FineFrame.ok]
                   · exact hokrest x hx
                 · simp [GuardPc.update, FineFrame.countsWriter, hwrap] <;> omega
                 · simp [GuardPc.update, FineFrame.countsReader, hwrap] <;> omega
                 · simp only [List.map_cons, List.sum_cons, FineFrame.holdsWriter,
                     FineFrame.passingWriter, GuardPc.update, hwrap]
                   first
                   | omega
                   | (split <;> omega))
          | some v =>
            simp only [GuardPc.check, check, hb] at hs
            by_cases hv : v = 1
            · subst hv
              simp only [decide_True, Bool.not_true, Bool.and_false, Bool.false_eq_true,
                if_false] at hs
              cases hs
              cases a <;>
                first
                | (exfalso; have hbad := hok1 rfl; simp at hbad; done)
                | (refine h.fine_set_stack hi _ G.State G.Owner ?_ ?_ ?_ ?_ ?_
                   · intro x hx
                     simp only [FineFrame.advance, Access.next] at hx
                     first
                     | exact hokrest x hx
                     | (rcases List.mem_cons.mp hx with rfl | hx
                        · simp [FineFrame.ok]
                        · exact hokrest x hx)
                   · simp only [FineFrame.advance, Access.next]
                     first
                     | exact htl
                     | exact htl'
                   · simp [FineFrame.advance, Access.next, FineFrame.countsWriter]
                   · simp [FineFrame.advance, Access.next, FineFrame.countsReader]
                   · simp [FineFrame.advance, Access.next, FineFrame.holdsWriter,
                       FineFrame.passingWriter]
                     omega)
            · simp [hv] at hs
        | readDtor =>
          simp only at hs
          have hwrap : InterlockedDecrement G.State.ConcurrentReaders = G.State.ConcurrentReaders - 1 :=
            wrap32_of_isInt32 ⟨by omega, by omega⟩
          cases pend with
          | none =>
            simp only at hs
            cases hs
            cases a <;>
              first
              | (exfalso; have hbad := hok1 rfl; simp at hbad; done)
              | (refine h.fine_set_stack hi _ _ G.Owner ?_ htl ?_ ?_ ?_
                 · intro x hx
                   rcases List.mem_cons.mp hx with rfl | hx
                   · simp [FineFrame.ok]
                   · exact hokrest x hx
                 · simp [GuardPc.update, FineFrame.countsWriter, hwrap] <;> omega
                 · simp [GuardPc.update, FineFrame.countsReader, hwrap] <;> omega
                 · simp only [List.map_cons, List.sum_cons, FineFrame.holdsWriter,
                     FineFrame.passingWriter, GuardPc.update, hwrap]
                   first
                   | omega
                   | (split <;> omega))
          | some v =>
            simp only [GuardPc.check, check, hb] at hs
            by_cases hv : v = 0
            · subst hv
              simp only [decide_True, Bool.not_true, Bool.and_false, Bool.false_eq_true,
                if_false] at hs
              cases hs
              cases a <;>
                first
                | (exfalso; have hbad := hok1 rfl; simp at hbad; done)
                | (refine h.fine_set_stack hi _ G.State G.Owner ?_ ?_ ?_ ?_ ?_
                   · intro x hx
                     simp only [FineFrame.advance, Access.next] at hx
                     first
                     | exact hokrest x hx
                     | (rcases List.mem_cons.mp hx with rfl | hx
                        · simp [FineFrame.ok]
                        · exact hokrest x hx)
                   · simp only [FineFrame.advance, Access.next]
                     first
                     | exact htl
                     | exact htl'
                   · simp [FineFrame.advance, Access.next, FineFrame.countsWriter]
                   · simp [FineFrame.advance, Access.next, FineFrame.countsReader]
                   · simp [FineFrame.advance, Access.next, FineFrame.holdsWriter,
                       FineFrame.passingWriter]
                     omega)
            · simp [hv] at hs
        | writeDtor =>
          simp only at hs
          have hwrap : InterlockedDecrement G.State.ConcurrentWriters = G.State.ConcurrentWriters - 1 :=
            wrap32_of_isInt32 ⟨by omega, by omega⟩
          cases pend with
          | none =>
            simp only at hs
            cases hs
            cases a <;>
              first
              | (exfalso; have hbad := hok1 rfl; simp at hbad; done)
              | (refine h.fine_set_stack hi _ _ G.Owner ?_ htl ?_ ?_ ?_
                 · intro x hx
                   rcases List.mem_cons.mp hx with rfl | hx
                   · simp [FineFrame.ok]
                   · exact hokrest x hx
                 · simp [GuardPc.update, FineFrame.countsWriter, hwrap] <;> omega
                 · simp [GuardPc.update, FineFrame.countsReader, hwrap] <;> omega
                 · simp only [List.map_cons, List.sum_cons, FineFrame.holdsWriter,
                     FineFrame.passingWriter, GuardPc.update, hwrap]
                   first
                   | omega
                   | (split <;> omega))
          | some v =>
            simp only [GuardPc.check, check, hb] at hs
            by_cases hv : v = 0
            · subst hv
              simp only [decide_True, Bool.not_true, Bool.and_false, Bool.false_eq_true,
                if_false] at hs
              cases hs
              cases a <;>
                first
                | (exfalso; have hbad := hok1 rfl; simp at hbad; done)
                | (refine h.fine_set_stack hi _ G.State G.Owner ?_ ?_ ?_ ?_ ?_
                   · intro x hx
                     simp only [FineFrame.advance, Access.next] at hx
                     first
                     | exact hokrest x hx
                     | (rcases List.mem_cons.mp hx with rfl | hx
                        · simp [FineFrame.ok]
                        · exact hokrest x hx)
                   · simp only [FineFrame.advance, Access.next]
                     first
                     | exact htl
                     | exact htl'
                   · simp [FineFrame.advance, Access.next, FineFrame.countsWriter]
                   · simp [FineFrame.advance, Access.next, FineFrame.countsReader]
                   · simp [FineFrame.advance, Access.next, FineFrame.holdsWriter,
                       FineFrame.passingWriter]
                     omega)
            · simp [hv] at hs

theorem FineInv.at_fine_start (n : Nat) : FineInv n (FineSystem.init n) := by
  have hsum : ∀ (f : FineFrame → Int) (k : Nat), fineTotal f (List.replicate k []) = 0 := by
    intro f k
    induction k with
    | zero => rfl
    | succ k ih =>
      unfold fineTotal at ih ⊢
      simp only [List.replicate_succ, List.map_cons, List.sum_cons, ih]
      rfl
  have hnil : ∀ st ∈ (FineSystem.init n).Stacks, st = [] :=
    fun st hst => List.eq_of_mem_replicate hst
  refine ⟨?_, ?_, ?_, ?_, ?_, ?_⟩
  · simp [FineSystem.init]
  · intro st hst fr hfr
    rw [hnil st hst] at hfr
    exact absurd hfr (List.not_mem_nil _)
  · intro st hst fr hfr
    rw [hnil st hst] at hfr
    exact absurd hfr (List.not_mem_nil _)
  · exact (hsum _ n).symm
  · exact (hsum _ n).symm
  · show fineTotal FineFrame.holdsWriter (List.replicate n []) +
      fineTotal FineFrame.passingWriter (List.replicate n []) ≤ 1
    rw [hsum, hsum]
    omega

/-- Every run at the finer grain that does not fail an assertion keeps the invariant. -/
theorem FineInv.along_fine_run {b : Build} (hb : b.DO_CHECK = true) {n : Nat}
    (hn : (n : Int) + 2 ≤ MAX_int32) (moves : List (Nat × Move)) :
    ∀ G G' : FineSystem, FineInv n G → FineSystem.run b G moves = Outcome.ret () G' →
      FineInv n G' := by
  induction moves with
  | nil =>
    intro G G' h hr
    cases hr
    exact h
  | cons im moves ih =>
    intro G G' h hr
    obtain ⟨i, m⟩ := im
    unfold FineSystem.run at hr
    cases hstep : G.step b i m with
    | fatal f G1 => rw [hstep] at hr; cases hr
    | ret u G1 =>
      rw [hstep] at hr
      exact ih G1 G' (h.after_fine_move hb hn i m hstep) hr

/-- Where no update waits for a `check` that will fail, every access that has
incremented the counter of writers holds the token or is about to. -/
theorem FineFrame.counts_of_not_doomed {b : Build} (hb : b.DO_CHECK = true) (fr : FineFrame)
    (State : FEnabledConcurrentCheck)
    (h : ∀ v, fr.pending = some v → (fr.pc.check b v State).failure = none) :
    fr.countsWriter = fr.holdsWriter + fr.passingWriter := by
  obtain ⟨a, pc, pend⟩ := fr
  cases pend with
  | none => cases pc <;> rfl
  | some v =>
    cases pc <;> try rfl
    have hv := h v rfl
    simp only [GuardPc.check, check, hb] at hv
    by_cases h1 : v = 1
    · subst h1
      rfl
    · simp [h1, Outcome.failure] at hv

theorem fineTotal_congr {f g : FineFrame → Int} :
    ∀ Stacks : List (List FineFrame), (∀ st ∈ Stacks, ∀ fr ∈ st, f fr = g fr) →
      fineTotal f Stacks = fineTotal g Stacks := by
  intro Stacks h
  have h1 := fineTotal_le (f := f) (g := g) Stacks (fun st hst fr hfr => le_of_eq (h st hst fr hfr))
  have h2 := fineTotal_le (f := g) (g := f) Stacks
    (fun st hst fr hfr => le_of_eq (h st hst fr hfr).symm)
  omega

/-- The counters under the invariant: readers are at most 1 and at most the
writers; where no update waits for a failing `check`, the counters are those
of `Idle`, `WriterHeld` or `ReaderAndWriterHeld`. -/
theorem FineInv.fine_states {b : Build} (hb : b.DO_CHECK = true) {n : Nat} {G : FineSystem}
    (h : FineInv n G) :
    (0 ≤ G.State.ConcurrentReaders ∧ G.State.ConcurrentReaders ≤ 1 ∧
      G.State.ConcurrentReaders ≤ G.State.ConcurrentWriters) ∧
    (G.noneDoomed b →
      G.State = Idle ∨ G.State = WriterHeld ∨ G.State = ReaderAndWriterHeld) := by
  have hc := h.counters
  have hone := h.one
  refine ⟨by omega, ?_⟩
  intro hnd
  have heq := fineTotal_congr (f := FineFrame.countsWriter)
    (g := fun fr => fr.holdsWriter + fr.passingWriter) G.Stacks
    (fun st hst fr hfr =>
      FineFrame.counts_of_not_doomed hb fr G.State (hnd st hst fr hfr))
  rw [fineTotal_add, ← h.writers] at heq
  obtain ⟨⟨R, W⟩, o, sts⟩ := G
  simp only at hc hone heq
  have hR : R = 0 ∨ R = 1 := by omega
  have hW : W = 0 ∨ W = 1 := by omega
  rcases hR with rfl | rfl <;> rcases hW with rfl | rfl
  · exact Or.inl rfl
  · exact Or.inr (Or.inl rfl)
  · omega
  · exact Or.inr (Or.inr rfl)

theorem fineTotal_ge_of_mem (f : FineFrame → Int) (hf : ∀ x, 0 ≤ f x) {fr : FineFrame}
    {st : List FineFrame} (hfr : fr ∈ st) {Stacks : List (List FineFrame)}
    (hst : st ∈ Stacks) : f fr ≤ fineTotal f Stacks := by
  have hnn : ∀ l : List FineFrame, 0 ≤ (l.map f).sum := by
    intro l
    induction l with
    | nil => simp
    | cons y l ih =>
      have := hf y
      simp only [List.map_cons, List.sum_cons]
      omega
  have h1 : ∀ l : List FineFrame, fr ∈ l → f fr ≤ (l.map f).sum := by
    intro l
    induction l with
    | nil => exact fun hx => absurd hx (List.not_mem_nil _)
    | cons y l ih =>
      intro hx
      have hy := hf y
      have hl := hnn l
      simp only [List.map_cons, List.sum_cons]
      rcases List.mem_cons.mp hx with rfl | hx
      · omega
      · have := ih hx
        omega
  have h2 : ∀ L : List (List FineFrame), st ∈ L → (st.map f).sum ≤ fineTotal f L := by
    intro L
    induction L with
    | nil => exact fun hx => absurd hx (List.not_mem_nil _)
    | cons y L ih =>
      intro hx
      have hy := hnn y
      have hL : 0 ≤ fineTotal f L := by
        have := fineTotal_le (f := fun _ => 0) (g := f) L (fun _ _ x _ => hf x)
        rw [fineTotal_zero] at this
        exact this
      unfold fineTotal at hL ih ⊢
      simp only [List.map_cons, List.sum_cons]
      rcases List.mem_cons.mp hx with rfl | hx
      · omega
      · have := ih hx
        omega
  have := h1 st hfr
  have := h2 Stacks hst
  omega

theorem FineSystem.fine_step_other {b : Build} {G G' : FineSystem} {i j : Nat} {m : Move}
    (hs : G.step b i m = Outcome.ret () G') (hne : j ≠ i) :
    G'.Stacks[j]? = G.Stacks[j]? := by
  have key : ∀ (S : FEnabledConcurrentCheck) (o : Option (Nat × Nat)) (st : List FineFrame),
      ({ State := S, Owner := o, Stacks := G.Stacks.set i st } : FineSystem).Stacks[j]? =
        G.Stacks[j]? := fun S o st => List.getElem?_set_ne (fun e => hne e.symm)
  unfold FineSystem.step at hs
  split at hs
  · cases hs; rfl
  · cases hs; exact key _ _ _
  · split at hs
    · cases hs; exact key _ _ _
    · cases hs; rfl
  · cases hs; rfl
  · split at hs
    · split at hs
      · cases hs; exact key _ _ _
      · split at hs
        · cases hs; exact key _ _ _
        · cases hs; rfl
    · cases hs; exact key _ _ _
    · cases hs; exact key _ _ _
    · split at hs
      · cases hs; exact key _ _ _
      · split at hs
        · cases hs; exact key _ _ _
        · cases hs

theorem FineSystem.run_others {b : Build} {j : Nat} (others : List (Nat × Move))
    (hoth : ∀ im ∈ others, im.1 ≠ j) :
    ∀ G G' : FineSystem, FineSystem.run b G others = Outcome.ret () G' →
      G'.Stacks[j]? = G.Stacks[j]? := by
  induction others with
  | nil =>
    intro G G' hr
    cases hr
    rfl
  | cons im others ih =>
    intro G G' hr
    obtain ⟨i, m⟩ := im
    unfold FineSystem.run at hr
    cases hstep : G.step b i m with
    | fatal f G1 => rw [hstep] at hr; cases hr
    | ret u G1 =>
      rw [hstep] at hr
      have h1 := ih (fun x hx => hoth x (List.mem_cons_of_mem _ hx)) G1 G' hr
      have h2 := FineSystem.fine_step_other hstep
        (fun e => hoth (i, m) (List.mem_cons_self _ _) e.symm)
      rw [h1, h2]

/-- At the finer grain: while some access holds the writer token, the
increment of another access returns a value other than 1, and whatever the
other threads do next, its `check(Writers == 1)` fails. -/
theorem FineInv.acquire_fails {b : Build} (hb : b.DO_CHECK = true) {n : Nat}
    (hn : (n : Int) + 2 ≤ MAX_int32) {G : FineSystem} (h : FineInv n G)
    {st : List FineFrame} {fr : FineFrame} (hst : st ∈ G.Stacks) (hfr : fr ∈ st)
    (hh : fr.holdsWriter = 1) {j : Nat} {a : Access} {rest : List FineFrame}
    (hj : G.Stacks[j]? = some ({ access := a, pc := GuardPc.writeCtor, pending := none } :: rest)) :
    ∃ (v : Int) (G1 : FineSystem), v ≠ 1 ∧ G.step b j Move.step = Outcome.ret () G1 ∧
      G1.Stacks[j]? =
        some ({ access := a, pc := GuardPc.writeCtor, pending := some v } :: rest) ∧
      ∀ (others : List (Nat × Move)) (G2 : FineSystem), (∀ im ∈ others, im.1 ≠ j) →
        FineSystem.run b G1 others = Outcome.ret () G2 →
        G2.step b j Move.step = Outcome.fatal Fatal.WritersNotOne G2 := by
  have hc := h.counters
  have hone := h.one
  have hge := fineTotal_ge_of_mem FineFrame.holdsWriter (fun x => x.bounds.1) hfr hst
  rw [hh] at hge
  unfold MAX_int32 at hn
  have hwrap : InterlockedIncrement G.State.ConcurrentWriters = G.State.ConcurrentWriters + 1 :=
    wrap32_of_isInt32 ⟨by omega, by omega⟩
  have hG1 : G.step b j Move.step = Outcome.ret ()
      { G with
        State := (GuardPc.writeCtor.update G.State).2,
        Stacks := G.Stacks.set j
          ({ access := a, pc := GuardPc.writeCtor,
             pending := some (GuardPc.writeCtor.update G.State).1 } :: rest) } := by
    unfold FineSystem.step
    rw [hj]
  refine ⟨(GuardPc.writeCtor.update G.State).1, _, ?_, hG1, ?_, ?_⟩
  · show InterlockedIncrement G.State.ConcurrentWriters ≠ 1
    rw [hwrap]
    omega
  · exact getElem?_set_self_of_some hj
  · intro others G2 hoth hrun
    have hj2 := FineSystem.run_others others hoth _ G2 hrun
    rw [getElem?_set_self_of_some hj] at hj2
    have hv : (GuardPc.writeCtor.update G.State).1 ≠ 1 := by
      show InterlockedIncrement G.State.ConcurrentWriters ≠ 1
      rw [hwrap]
      omega
    unfold FineSystem.step
    rw [hj2]
    simp only [GuardPc.check, check, hb]
    simp [hv]

/-! ## Claims about the guard -/

/-- C6, as stated, fails.  In a checked build two threads call `ReadUnsafe`:
the first increments `ConcurrentWriters` to 1, passes `check(Writers == 1)`
and is inside its closure; the second executes its `InterlockedIncrement`
(line 52), which returns 2, and has not yet reached its `check` (line 53).
No assertion has failed, and the guard has 0 readers and 2 writers, which is
none of `Idle`, `WriterHeld`, `ReaderAndWriterHeld`. -/
theorem two_writers_before_the_check :
    FineSystem.run ⟨true, true⟩ (FineSystem.init 2)
        [(0, Move.call Access.ReadUnsafe), (0, Move.step), (0, Move.step),
          (1, Move.call Access.ReadUnsafe), (1, Move.step)] =
      Outcome.ret ()
        { State := { ConcurrentReaders := 0, ConcurrentWriters := 2 }, Owner := none,
          Stacks :=
            [[{ access := Access.ReadUnsafe, pc := GuardPc.body, pending := none }],
              [{ access := Access.ReadUnsafe, pc := GuardPc.writeCtor, pending := some 2 }]] } ∧
    ¬ (({ ConcurrentReaders := 0, ConcurrentWriters := 2 } : FEnabledConcurrentCheck) = Idle ∨
        ({ ConcurrentReaders := 0, ConcurrentWriters := 2 } : FEnabledConcurrentCheck) =
          WriterHeld ∨
        ({ ConcurrentReaders := 0, ConcurrentWriters := 2 } : FEnabledConcurrentCheck) =
          ReaderAndWriterHeld) ∧
    ¬ (({ ConcurrentReaders := 0, ConcurrentWriters := 2 } :
        FEnabledConcurrentCheck).ConcurrentWriters ≤ 1) :=
  ⟨rfl, by decide, by decide⟩

/-- C6, amended.  In a checked build with fewer than `2^31 - 2` threads, with
the interlocked update and the `check` on its returned value as separate
moves: every state of the guard reached from the initial state by moves of the
threads (starting accesses, also from inside closures, and executing their
lines) without a failed assertion has at most one reader and no more readers
than writers; and every such state in which no interlocked update waits for a
`check` that will fail has the counters of `Idle`, `WriterHeld` or
`ReaderAndWriterHeld`: at most one writer, at most one reader, and a reader
only together with a writer. -/
theorem guard_states_without_doomed_update {b : Build} (hb : b.DO_CHECK = true) (n : Nat)
    (hn : (n : Int) + 2 ≤ MAX_int32) (moves : List (Nat × Move)) (G : FineSystem)
    (hr : FineSystem.run b (FineSystem.init n) moves = Outcome.ret () G) :
    (0 ≤ G.State.ConcurrentReaders ∧ G.State.ConcurrentReaders ≤ 1 ∧
      G.State.ConcurrentReaders ≤ G.State.ConcurrentWriters) ∧
    (G.noneDoomed b →
      (G.State = Idle ∨ G.State = WriterHeld ∨ G.State = ReaderAndWriterHeld) ∧
        G.State.ConcurrentWriters ≤ 1 ∧ G.State.ConcurrentReaders ≤ 1 ∧
        (G.State.ConcurrentReaders = 1 → G.State.ConcurrentWriters = 1)) := by
  have h := (FineInv.along_fine_run hb hn moves _ G (FineInv.at_fine_start n) hr).fine_states hb
  refine ⟨h.1, ?_⟩
  intro hnd
  have hs := h.2 hnd
  refine ⟨hs, ?_, ?_, ?_⟩ <;> rcases hs with e | e | e <;> rw [e] <;>
    simp [Idle, WriterHeld, ReaderAndWriterHeld]

/-- C6 amended, at an instance: a thread in `ReadLocked` has incremented
`ConcurrentWriters` to 1 and not yet run its `check`; the guard is in `WriterHeld`. -/
theorem guard_states_without_doomed_update_witness :
    (WriterHeld = Idle ∨ WriterHeld = WriterHeld ∨ WriterHeld = ReaderAndWriterHeld) ∧
      WriterHeld.ConcurrentWriters ≤ 1 ∧ WriterHeld.ConcurrentReaders ≤ 1 ∧
      (WriterHeld.ConcurrentReaders = 1 → WriterHeld.ConcurrentWriters = 1) :=
  (guard_states_without_doomed_update (rfl : (⟨true, true⟩ : Build).DO_CHECK = true) 1
    (by decide)
    [(0, Move.call Access.ReadLocked), (0, Move.step), (0, Move.step)]
    { State := WriterHeld, Owner := some (0, 1),
      Stacks := [[{ access := Access.ReadLocked, pc := GuardPc.writeCtor, pending := some 1 }]] }
    rfl).2
    (by
      intro st hst fr hfr v hv
      simp only [List.mem_singleton] at hst
      subst hst
      simp only [List.mem_singleton] at hfr
      subst hfr
      cases hv
      rfl)

/-- C7. In a checked build: on every guard reached without a failed assertion
on which some `ReadUnsafe` access holds the writer token (its closure is running,
or has returned and the scope is not yet destroyed), the token acquisition of a
second `ReadUnsafe` access, by any thread, fails `check(Writers == 1)` and the
stacks are unchanged, so the second closure is not entered.  With the
interlocked update and its `check` as separate moves: the increment of the
second access returns a value other than 1, and whatever the other threads do
before it runs, its `check(Writers == 1)` then fails.  As a function:
`ReadUnsafe` on a guard whose counter of writers is 1 stops at that assertion
whatever its closure is, with the captures untouched. -/
theorem second_ReadUnsafe_fails (T E : Type) {b : Build} (hb : b.DO_CHECK = true) :
    (∀ (n : Nat) (moves : List (Nat × Move)) (G : GuardSystem) (i j : Nat)
        (st rest : List Frame),
      GuardSystem.run b (GuardSystem.init n) moves = Outcome.ret () G →
      G.Stacks[i]? = some st →
      ({ access := Access.ReadUnsafe, pc := GuardPc.body } ∈ st ∨
        { access := Access.ReadUnsafe, pc := GuardPc.writeDtor } ∈ st) →
      G.Stacks[j]? = some ({ access := Access.ReadUnsafe, pc := GuardPc.writeCtor } :: rest) →
      G.step b j Move.step =
        Outcome.fatal Fatal.WritersNotOne
          { G with State := { G.State with ConcurrentWriters := 2 } }) ∧
    (∀ (n : Nat) (moves : List (Nat × Move)) (G : FineSystem) (i j : Nat)
        (st rest : List FineFrame) (fr : FineFrame),
      (n : Int) + 2 ≤ MAX_int32 →
      FineSystem.run b (FineSystem.init n) moves = Outcome.ret () G →
      G.Stacks[i]? = some st → fr ∈ st → fr.access = Access.ReadUnsafe →
      fr.holdsWriter = 1 →
      G.Stacks[j]? =
        some ({ access := Access.ReadUnsafe, pc := GuardPc.writeCtor, pending := none } ::
          rest) →
      ∃ (v : Int) (G1 : FineSystem), v ≠ 1 ∧ G.step b j Move.step = Outcome.ret () G1 ∧
        G1.Stacks[j]? =
          some ({ access := Access.ReadUnsafe, pc := GuardPc.writeCtor, pending := some v } ::
            rest) ∧
        ∀ (others : List (Nat × Move)) (G2 : FineSystem), (∀ im ∈ others, im.1 ≠ j) →
          FineSystem.run b G1 others = Outcome.ret () G2 →
          G2.step b j Move.step = Outcome.fatal Fatal.WritersNotOne G2) ∧
    (∀ (Function : Closure T E true) (R : Int) (Depth : Nat) (v : T) (env : E),
      ReadUnsafe b Function
          (TReadWriteLock.checked { ConcurrentReaders := R, ConcurrentWriters := 1 } Depth v,
            env) =
        Outcome.fatal Fatal.WritersNotOne
          (TReadWriteLock.checked { ConcurrentReaders := R, ConcurrentWriters := 2 } Depth v,
            env)) := by
  refine ⟨?_, ?_, ?_⟩
  · intro n moves G i j st rest hr hi hfr hj
    have h := GuardInv.along_run hb moves _ G (GuardInv.at_start n) hr
    have hst : st ∈ G.Stacks := List.mem_iff_getElem?.mpr ⟨i, hi⟩
    rcases hfr with hfr | hfr
    · exact h.acquire_fatal hb hst hfr rfl hj
    · exact h.acquire_fatal hb hst hfr rfl hj
  · intro n moves G i j st rest fr hn hr hi hfr _ hh hj
    have h := FineInv.along_fine_run hb hn moves _ G (FineInv.at_fine_start n) hr
    have hst : st ∈ G.Stacks := List.mem_iff_getElem?.mpr ⟨i, hi⟩
    exact h.acquire_fails hb hn hst hfr hh hj
  · intro Function R Depth v env
    unfold ReadUnsafe TReadWriteLock.onState
    simp only [FWriteOnlyScope.ctor, TReadWriteLock.checked]
    rw [writeCtor_fatal hb _ rfl]
    rfl

/-- C7, at an instance: two threads call `ReadUnsafe`; the first is inside its
closure when the second acquires. -/
theorem second_ReadUnsafe_fails_witness :
    GuardSystem.step ⟨true, true⟩
        { State := WriterHeld, Owner := none,
          Stacks := [[{ access := Access.ReadUnsafe, pc := GuardPc.body }],
                     [{ access := Access.ReadUnsafe, pc := GuardPc.writeCtor }]] }
        1 Move.step =
      Outcome.fatal Fatal.WritersNotOne
        { State := { ConcurrentReaders := 0, ConcurrentWriters := 2 }, Owner := none,
          Stacks := [[{ access := Access.ReadUnsafe, pc := GuardPc.body }],
                     [{ access := Access.ReadUnsafe, pc := GuardPc.writeCtor }]] } :=
  (second_ReadUnsafe_fails Nat Unit (rfl : (⟨true, true⟩ : Build).DO_CHECK = true)).1 2
    [(0, Move.call Access.ReadUnsafe), (0, Move.step), (1, Move.call Access.ReadUnsafe)]
    { State := WriterHeld, Owner := none,
      Stacks := [[{ access := Access.ReadUnsafe, pc := GuardPc.body }],
                 [{ access := Access.ReadUnsafe, pc := GuardPc.writeCtor }]] }
    0 1 [{ access := Access.ReadUnsafe, pc := GuardPc.body }] [] rfl rfl (Or.inl (by simp)) rfl

/-- C8. In a checked build, on a guard in the Idle state: each of `ReadUnsafe`,
`ReadLocked` and `ReadWriteLocked`, called with a closure that does not access
the guard (one that writes the payload it is handed, or one that only reads
it), raises no assertion, applies the closure exactly once and leaves the
guard Idle; while the closure runs the counters are those of `WriterHeld`
(`ReadUnsafe`) or `ReaderAndWriterHeld` (the locked operations); line by line the
counters go up in the order writer, reader and down in the order reader,
writer; and every sequence of such accesses made one after the other returns
with the guard Idle. -/
theorem access_releases_tokens (T E : Type) {b : Build} (hb : b.DO_CHECK = true) :
    (∀ (a : Access) (f : T → E → T × E) (v : T) (env : E),
      a.call b (Closure.writing f) (TReadWriteLock.idle v, env) =
        Outcome.ret () (TReadWriteLock.idle (f v env).1, (f v env).2)) ∧
    (∀ (a : Access) (f : T → E → E) (v : T) (env : E),
      a.call b (Closure.reading f) (TReadWriteLock.idle v, env) =
        Outcome.ret () (TReadWriteLock.idle v, f v env)) ∧
    (∀ (f : TReadWriteLock T true → E → E) (v : T) (env : E),
      ReadUnsafe b (Closure.observing f) (TReadWriteLock.idle v, env) =
        Outcome.ret () (TReadWriteLock.idle v, f (TReadWriteLock.checked WriterHeld 0 v) env) ∧
      ReadLocked b (Closure.observing f) (TReadWriteLock.idle v, env) =
        Outcome.ret ()
          (TReadWriteLock.idle v, f (TReadWriteLock.checked ReaderAndWriterHeld 1 v) env) ∧
      ReadWriteLocked b (Closure.observing f) (TReadWriteLock.idle v, env) =
        Outcome.ret ()
          (TReadWriteLock.idle v, f (TReadWriteLock.checked ReaderAndWriterHeld 1 v) env)) ∧
    (soloTrace b Access.ReadUnsafe 4 = [Idle, WriterHeld, WriterHeld, Idle] ∧
      soloTrace b Access.ReadLocked 8 =
        [Idle, Idle, WriterHeld, ReaderAndWriterHeld, ReaderAndWriterHeld, WriterHeld,
          Idle, Idle] ∧
      soloTrace b Access.ReadWriteLocked 8 =
        [Idle, Idle, WriterHeld, ReaderAndWriterHeld, ReaderAndWriterHeld, WriterHeld,
          Idle, Idle] ∧
      GuardSystem.run b (GuardSystem.init 1) (soloMoves Access.ReadUnsafe 3) =
        Outcome.ret () (GuardSystem.init 1) ∧
      GuardSystem.run b (GuardSystem.init 1) (soloMoves Access.ReadLocked 7) =
        Outcome.ret () (GuardSystem.init 1) ∧
      GuardSystem.run b (GuardSystem.init 1) (soloMoves Access.ReadWriteLocked 7) =
        Outcome.ret () (GuardSystem.init 1)) ∧
    (∀ (accesses : List (Access × (T → E → T × E))) (v : T) (env : E),
      ∃ (v' : T) (env' : E),
        runAccesses b (accesses.map fun af => (af.1, Closure.writing af.2))
            (TReadWriteLock.idle v, env) =
          Outcome.ret () (TReadWriteLock.idle v', env')) := by
  obtain ⟨c, slow⟩ := b
  simp only at hb
  subst hb
  have h1 : ∀ (a : Access) (f : T → E → T × E) (v : T) (env : E),
      a.call ⟨true, slow⟩ (Closure.writing f) (TReadWriteLock.idle v, env) =
        Outcome.ret () (TReadWriteLock.idle (f v env).1, (f v env).2) := by
    intro a f v env
    cases a <;> rfl
  refine ⟨h1, ?_, ?_, ?_, ?_⟩
  · intro a f v env
    cases a <;> rfl
  · intro f v env
    exact ⟨rfl, rfl, rfl⟩
  · cases slow <;> exact ⟨rfl, rfl, rfl, rfl, rfl, rfl⟩
  · intro accesses
    induction accesses with
    | nil => exact fun v env => ⟨v, env, rfl⟩
    | cons af accesses ih =>
      intro v env
      obtain ⟨v', env', h⟩ := ih (af.2 v env).1 (af.2 v env).2
      refine ⟨v', env', ?_⟩
      simp only [List.map_cons, runAccesses]
      rw [h1]
      exact h

/-- C8, at an instance: `ReadLocked` then `ReadWriteLocked` on a guard holding 5. -/
theorem access_releases_tokens_witness :
    ∃ (v' : Nat) (env' : List Nat),
      runAccesses ⟨true, true⟩
          ([(Access.ReadLocked, fun (v : Nat) (l : List Nat) => (v, v :: l)),
            (Access.ReadWriteLocked, fun (v : Nat) (l : List Nat) => (v + 1, l))].map
            fun af => (af.1, Closure.writing af.2))
          (TReadWriteLock.idle 5, []) =
        Outcome.ret () (TReadWriteLock.idle v', env') :=
  (access_releases_tokens Nat (List Nat)
    (rfl : (⟨true, true⟩ : Build).DO_CHECK = true)).2.2.2.2
    [(Access.ReadLocked, fun (v : Nat) (l : List Nat) => (v, v :: l)),
      (Access.ReadWriteLocked, fun (v : Nat) (l : List Nat) => (v + 1, l))] 5 []

/-- C9. With checking disabled the scope objects have no state and their
constructors and destructors do nothing and never assert; `ReadUnsafe` is then
the closure applied to the payload, for every closure; each of the three
operations called with a closure that does not access the guard returns the
payload and captures the closure computes; and on a guard in the Idle state
the checked variant of each operation returns the same payload and captures,
in every build. -/
theorem unchecked_is_transparent (T E : Type) (b : Build) :
    (∀ s s' : FDisabledConcurrentCheck, s = s') ∧
    (∀ s : FConcurrent false,
      FWriteOnlyScope.ctor false b s = Outcome.ret () s ∧
      FWriteOnlyScope.dtor false b s = Outcome.ret () s ∧
      FReadOnlyScope.ctor false b s = Outcome.ret () s ∧
      FReadOnlyScope.dtor false b s = Outcome.ret () s) ∧
    (∀ (Function : Closure T E false) (w : World T E false),
      ReadUnsafe b Function w = Function w.1.Type_ w) ∧
    (∀ (a : Access) (f : T → E → T × E) (v : T) (env : E),
      a.call b (Closure.writing f) (TReadWriteLock.unchecked v, env) =
        Outcome.ret () (TReadWriteLock.unchecked (f v env).1, (f v env).2)) ∧
    (∀ (a : Access) (f : T → E → T × E) (v : T) (env : E),
      a.call b (Closure.writing f) (TReadWriteLock.idle v, env) =
        Outcome.ret () (TReadWriteLock.idle (f v env).1, (f v env).2)) := by
  refine ⟨?_, ?_, ?_, ?_, ?_⟩
  · intro s s'
    rfl
  · intro s
    exact ⟨rfl, rfl, rfl, rfl⟩
  · intro Function w
    unfold ReadUnsafe
    show (Function w.1.Type_ w).bind _ = _
    cases Function w.1.Type_ w with
    | ret u w' => rfl
    | fatal f w' => rfl
  · intro a f v env
    cases a <;> rfl
  · intro a f v env
    obtain ⟨c, slow⟩ := b
    cases c <;> cases a <;> rfl

/-- C10. In a checked build, on a guard in the Idle state, a closure passed to
any of the three operations that itself calls any of the three operations on
the same guard stops at `check(Writers == 1)` of the nested call, whatever the
nested closure is, with payload and captures untouched; likewise for threads,
the writer-scope constructor of an access started from inside a closure fails.
With checking disabled the same nested call returns, having applied the
nested closure. -/
theorem reentry_fails (T E : Type) {b : Build} (hb : b.DO_CHECK = true) :
    (∀ (outer inner : Access) (Inner : Closure T E true) (v : T) (env : E),
      ∃ (R : Int) (Depth : Nat),
        outer.call b (Closure.nested inner b Inner) (TReadWriteLock.idle v, env) =
          Outcome.fatal Fatal.WritersNotOne
            (TReadWriteLock.checked { ConcurrentReaders := R, ConcurrentWriters := 2 } Depth v,
              env)) ∧
    (∀ (n : Nat) (moves : List (Nat × Move)) (G : GuardSystem) (i : Nat)
        (outer inner : Access) (rest : List Frame),
      GuardSystem.run b (GuardSystem.init n) moves = Outcome.ret () G →
      G.Stacks[i]? = some ({ access := inner, pc := GuardPc.writeCtor } ::
        { access := outer, pc := GuardPc.body } :: rest) →
      G.step b i Move.step =
        Outcome.fatal Fatal.WritersNotOne
          { G with State := { G.State with ConcurrentWriters := 2 } }) ∧
    (∀ (outer inner : Access) (f : T → E → T × E) (v : T) (env : E),
      outer.call b (Closure.nested inner b (Closure.writing f))
          (TReadWriteLock.unchecked v, env) =
        Outcome.ret () (TReadWriteLock.unchecked (f v env).1, (f v env).2)) := by
  refine ⟨?_, ?_, ?_⟩
  · obtain ⟨c, slow⟩ := b
    simp only at hb
    subst hb
    intro outer inner Inner v env
    cases outer <;> cases inner <;> exact ⟨_, _, rfl⟩
  · intro n moves G i outer inner rest hr hi
    have h := GuardInv.along_run hb moves _ G (GuardInv.at_start n) hr
    have hst := List.mem_iff_getElem?.mpr ⟨i, hi⟩
    exact h.acquire_fatal hb hst
      (List.mem_cons_of_mem _ (List.mem_cons_self _ _)) rfl hi
  · intro outer inner f v env
    cases outer <;> cases inner <;> rfl

/-- C10, at an instance: `ReadLocked` called from inside the closure of `ReadLocked`. -/
theorem reentry_fails_witness :
    ∃ (R : Int) (Depth : Nat),
      Access.ReadLocked.call ⟨true, true⟩
          (Closure.nested Access.ReadLocked ⟨true, true⟩
            (Closure.writing fun (v : Nat) (l : List Nat) => (v + 1, v :: l)))
          (TReadWriteLock.idle 5, []) =
        Outcome.fatal Fatal.WritersNotOne
          (TReadWriteLock.checked { ConcurrentReaders := R, ConcurrentWriters := 2 } Depth 5,
            []) :=
  (reentry_fails Nat (List Nat) (rfl : (⟨true, true⟩ : Build).DO_CHECK = true)).1
    Access.ReadLocked Access.ReadLocked
    (Closure.writing fun (v : Nat) (l : List Nat) => (v + 1, v :: l)) 5 []

end Concurrent

end UE
